import Mathlib

set_option maxRecDepth 10000

/-!
Verification development for the forecast-acquisition engine of the
context-is-key-forecasting benchmark (`benchmark/baselines/crazycast.py`).

Python strings are modelled as `List Char`, Python ints as `ℕ`/`ℤ`, and
Python floats as `ℚ` (exact rational values; the claims under study do not
depend on binary floating-point rounding).  Fallible Python code (code whose
exceptions are observed by a caller) is modelled with `Option`/`Except`.
-/

/-! ### Generic Python-builtin models -/

/-- Python `str.split(sep)` for a one-character separator `sep`: splits on every
occurrence, keeping empty fragments (`"".split(",") == [""]`). -/
def splitOnChar (sep : Char) : List Char → List (List Char)
  | [] => [[]]
  | c :: rest =>
    let r := splitOnChar sep rest
    if c = sep then [] :: r
    else
      match r with
      | [] => [[c]]
      | h :: t => (c :: h) :: t

/-- A `List.mapM`-style traversal in the `Option` monad, written by explicit
recursion so that its equations are directly usable in proofs.  It models a
Python comprehension that fails (raises) as soon as one element fails. -/
def optMapM (f : α → Option β) : List α → Option (List β)
  | [] => some []
  | a :: l =>
    match f a, optMapM f l with
    | some b, some bs => some (b :: bs)
    | _, _ => none

/-- Lookup in an association list where a later binding for the same key wins,
as in a Python dict built by inserting the pairs in list order. -/
def lookupLast (k : List Char) : List (List Char × ℚ) → Option ℚ
  | [] => none
  | (k2, v) :: rest =>
    match lookupLast k rest with
    | some v2 => some v2
    | none => if k2 = k then some v else none

/-- Numeric value of a big-endian list of decimal digit characters. -/
def digitsVal (ds : List Char) : ℕ :=
  ds.foldl (fun a c => 10 * a + (c.toNat - 48)) 0

/-- The whitespace characters stripped by Python `float(str)`. -/
def pyIsSpace (c : Char) : Bool :=
  c = ' ' ∨ c = '\t' ∨ c = '\n' ∨ c = '\r' ∨ c = '\x0b' ∨ c = '\x0c'

/-- Python `str.strip()` as applied by `float`: drop whitespace on both ends. -/
def trimWs (l : List Char) : List Char :=
  ((l.dropWhile pyIsSpace).reverse.dropWhile pyIsSpace).reverse

/-- Unsigned part of the Python `float(str)` literal grammar:
`digits [. digits] [(e|E) [sign] digits]`, where at least one digit must be
present in the mantissa.  (The special literals `inf`/`nan` and digit-group
underscores are outside the fragment exercised by this program's parser.) -/
def pyFloatUnsigned (w : List Char) : Option ℚ :=
  let ip := w.takeWhile Char.isDigit
  let r1 := w.dropWhile Char.isDigit
  let fr :=
    match r1 with
    | '.' :: r => (r.takeWhile Char.isDigit, r.dropWhile Char.isDigit)
    | _ => ([], r1)
  let fp := fr.1
  let r2 := fr.2
  if ip.isEmpty ∧ fp.isEmpty then none
  else
    let mant : ℚ := (digitsVal ip : ℚ) + (digitsVal fp : ℚ) / 10 ^ fp.length
    match r2 with
    | [] => some mant
    | c :: r3 =>
      if c = 'e' ∨ c = 'E' then
        let sr : Bool × List Char :=
          match r3 with
          | '+' :: r => (true, r)
          | '-' :: r => (false, r)
          | _ => (true, r3)
        let ed := sr.2.takeWhile Char.isDigit
        let r5 := sr.2.dropWhile Char.isDigit
        if ed.isEmpty ∨ ¬ r5.isEmpty then none
        else some (if sr.1 then mant * 10 ^ digitsVal ed else mant / 10 ^ digitsVal ed)
      else none

/-- Python `float(str)`: strip whitespace, optional sign, then the unsigned
literal grammar. -/
def pyFloat (v : List Char) : Option ℚ :=
  match trimWs v with
  | '+' :: r => pyFloatUnsigned r
  | '-' :: r => (pyFloatUnsigned r).map Neg.neg
  | w => pyFloatUnsigned w

/-! ### Response parsing (`CrazyCast.__call__`, per-choice try-block) -/

/-- Split a character list at the first occurrence of `pat`, returning the text
before the occurrence and the text after it. -/
def findSplit (pat : List Char) : List Char → Option (List Char × List Char)
  | [] => if pat.isPrefixOf ([] : List Char) then some ([], []) else none
  | c :: rest =>
    if pat.isPrefixOf (c :: rest) then some ([], (c :: rest).drop pat.length)
    else (findSplit pat rest).map (fun p => (c :: p.1, p.2))

/-- Modelled from the spec: the helper `extract_html_tags` lives in
`benchmark/baselines/utils.py`, which is not part of the provided sources; per
the spec (§4.2) the parser "extracts a delimited forecast block from free
text", the block being delimited by `<forecast>` and `</forecast>` tags.  We
model the extraction of the first such block: the text between the first
`<forecast>` and the next `</forecast>` after it; `none` when no block is
found (Python: `KeyError`/`IndexError`, caught by the engine). -/
def extract_html_tags_forecast (raw : List Char) : Option (List Char) :=
  match findSplit "<forecast>".data raw with
  | none => none
  | some p =>
    match findSplit "</forecast>".data p.2 with
    | none => none
    | some q => some q.1

/-- Python `forecast.replace("(", "").replace(")", "")`. -/
def stripParens (l : List Char) : List Char :=
  (l.filter (fun c => c ≠ '(')).filter (fun c => c ≠ ')')

/-- Python `x.split(",")[0].replace("'", "").replace('"', "")` applied to an
already-split first field: remove all single and double quotes. -/
def removeQuotes (l : List Char) : List Char :=
  (l.filter (fun c => c ≠ '\x27')).filter (fun c => c ≠ '\x22')

/-- One line of the forecast block, as handled by the dict comprehension
`{x.split(",")[0].replace(...): float(x.split(",")[1]) for x in forecast}`:
the line must have at least two comma-separated fields (`[1]` raises
`IndexError` otherwise), the second field must parse as a float, and any
further fields are ignored. -/
def parseLine (x : List Char) : Option (List Char × ℚ) :=
  match splitOnChar ',' x with
  | t :: v :: _ => (pyFloat v).map (fun q => (removeQuotes t, q))
  | _ => none

/-- The whole per-choice parsing pipeline of `CrazyCast.__call__`
(crazycast.py lines 367–387): extract the forecast block, remove parentheses,
split into lines, build the timestamp-keyed mapping, then look up every
requested target timestamp in target order.  Any exception yields `none`
(the candidate is rejected). -/
def parseForecast (targets : List (List Char)) (raw : List Char) : Option (List ℚ) :=
  match extract_html_tags_forecast raw with
  | none => none
  | some block =>
    let lines := splitOnChar '\n' (stripParens block)
    match optMapM parseLine lines with
    | none => none
    | some pairs => optMapM (fun t => lookupLast t pairs) targets

/-! ### Decimal rendering of numbers (Python `str`/format models) -/

/-- The decimal digit character for `d < 10` (fallback `'0'` is never reached
by the renderers below, which only pass values reduced mod 10). -/
def digitChar10 (d : ℕ) : Char :=
  match d with
  | 0 => '0' | 1 => '1' | 2 => '2' | 3 => '3' | 4 => '4'
  | 5 => '5' | 6 => '6' | 7 => '7' | 8 => '8' | _ => '9'

/-- Fuel-driven digit accumulator for `natRepr`; the fuel is an upper bound on
the number of divisions by 10 and keeps the recursion structural (so that the
kernel can evaluate it on closed inputs). -/
def natReprAux : ℕ → ℕ → List Char → List Char
  | 0, _, acc => acc
  | fuel + 1, n, acc =>
    if n < 10 then digitChar10 n :: acc
    else natReprAux fuel (n / 10) (digitChar10 (n % 10) :: acc)

/-- Python `str(n)` for a nonnegative integer: its decimal digits. -/
def natRepr (n : ℕ) : List Char := natReprAux (n + 1) n []

/-- Python `str(z)` for an integer: optional minus sign then decimal digits. -/
def intRepr (z : ℤ) : List Char :=
  if z < 0 then '-' :: natRepr z.natAbs else natRepr z.natAbs

/-- Python `str(b)` for a boolean: `True` or `False`. -/
def boolRepr (b : Bool) : List Char :=
  if b then "True".data else "False".data

/-- Python `str(x)` for the float-valued `temperature` configuration field.
Python renders a float as its shortest round-tripping decimal, which is an
injective rendering built from digits, `.`, `-`, `e` and `+`; we model the
float value as an exact rational and its rendering abstractly as the
(injective) canonical `numerator.denominator` digit string, which uses the
same restricted character set. -/
def qRepr (q : ℚ) : List Char :=
  intRepr q.num ++ '.' :: natRepr q.den

/-! ### Cache key (`CrazyCast.cache_name`, crazycast.py lines 444-456) -/

/-- Engine configuration, fixed at `CrazyCast.__init__`.  `token_cost` is the
optional `(input, output)` per-1000-token price pair; `total_cost` (the
lifetime accumulator) is threaded explicitly through calls instead of being a
mutable attribute. -/
structure CrazyCast where
  model : List Char
  use_context : Bool
  fail_on_invalid : Bool
  n_retries : ℕ
  batch_size_on_retry : ℕ
  batch_size : Option ℕ
  token_cost : Option (ℚ × ℚ)
  temperature : ℚ

/-- Python `self.model.startswith("gpt")`. -/
def modelIsGpt (cfg : CrazyCast) : Bool :=
  "gpt".data.isPrefixOf cfg.model

/-- `CrazyCast.cache_name`: `f"{cls}_" + "_".join(f"{k}={getattr(self,k)}")`
over `model`, `use_context`, `fail_on_invalid`, `n_retries`, with
`temperature` appended only when the model name does not start with `"gpt"`. -/
def cache_name (cfg : CrazyCast) : List Char :=
  "CrazyCast_model=".data ++ cfg.model
    ++ "_use_context=".data ++ boolRepr cfg.use_context
    ++ "_fail_on_invalid=".data ++ boolRepr cfg.fail_on_invalid
    ++ "_n_retries=".data ++ natRepr cfg.n_retries
    ++ (if modelIsGpt cfg then [] else "_temperature=".data ++ qRepr cfg.temperature)

/-! ### Prompt value serialization (`CrazyCast.make_prompt`, lines 240-248) -/

/-- Round-half-to-even of a rational to an integer, the rounding used by C's
(and Python's) float formatting. -/
def roundHalfEven (q : ℚ) : ℤ :=
  let f := ⌊q⌋
  let r := q - f
  if r < 1 / 2 then f
  else if 1 / 2 < r then f + 1
  else if Even f then f else f + 1

/-- Python `round(x, 2)` on the (exact-rational model of the) cost value:
round half-to-even at two decimal places. -/
def pyRound2 (q : ℚ) : ℚ :=
  (roundHalfEven (q * 100) : ℚ) / 100

/-- Fuel-driven search for the smallest `k ≥ 1` with `1 ≤ a * 10 ^ k`, used to
find the decimal exponent of a positive rational below `1`. -/
def negExpAux : ℕ → ℚ → ℕ
  | 0, _ => 1
  | fuel + 1, a => if 1 ≤ a * 10 then 1 else 1 + negExpAux fuel (a * 10)

/-- Decimal exponent `e` of a positive rational `a`: the unique integer with
`10 ^ e ≤ a < 10 ^ (e + 1)` (computed from the digit count of `⌊a⌋` when
`a ≥ 1`, and by scaling when `a < 1`). -/
def decExp (a : ℚ) : ℤ :=
  if 1 ≤ a then ((natRepr (⌊a⌋).toNat).length : ℤ) - 1
  else -(negExpAux (natRepr a.den).length a : ℤ)

/-- `List.replicate k '0'`, the zero padding used by the float formatters. -/
def zeros (k : ℕ) : List Char := List.replicate k '0'

/-- Significand of `a > 0` rounded to `p` significant digits, together with
the (possibly carried) decimal exponent: returns `(n, e)` with
`10 ^ (p - 1) ≤ n < 10 ^ p` and `a ≈ n * 10 ^ (e - p + 1)`. -/
def sigRound (p : ℕ) (a : ℚ) : ℕ × ℤ :=
  let e0 := decExp a
  let n := (roundHalfEven (a * (10 : ℚ) ^ ((p : ℤ) - 1 - e0))).toNat
  if n = 10 ^ p then (10 ^ (p - 1), e0 + 1) else (n, e0)

/-- Scientific-notation exponent suffix of C/Python `%e`/`%g`: `e`, the sign,
and at least two exponent digits. -/
def expSuffix (e : ℤ) : List Char :=
  let ds := natRepr e.natAbs
  let ds := if ds.length < 2 then zeros (2 - ds.length) ++ ds else ds
  'e' :: (if e < 0 then '-' else '+') :: ds

/-- Python format `f"{a:.{p}g}"` for the exact-rational model `a` of a float,
with precision `p ≥ 1`: round to `p` significant digits, drop insignificant
trailing zeros, then use positional notation when the decimal exponent `e`
satisfies `-4 ≤ e < p` and scientific notation otherwise. -/
def pyFormatG (p : ℕ) (y : ℚ) : List Char :=
  if y = 0 then ['0']
  else
    let sign : List Char := if y < 0 then ['-'] else []
    let ne := sigRound p |y|
    let e := ne.2
    let sig := (natRepr ne.1).reverse.dropWhile (fun c => c = '0') |>.reverse
    let sig := if sig.isEmpty then ['0'] else sig
    if -4 ≤ e ∧ e < (p : ℤ) then
      if 0 ≤ e then
        let ip := e.toNat + 1
        if sig.length ≤ ip then sign ++ sig ++ zeros (ip - sig.length)
        else sign ++ sig.take ip ++ '.' :: sig.drop ip
      else sign ++ '0' :: '.' :: zeros (e.natAbs - 1) ++ sig
    else
      let mant :=
        match sig with
        | [] => ['0']
        | d :: [] => [d]
        | d :: rest => d :: '.' :: rest
      sign ++ mant ++ expSuffix e

/-- Python format `f"{y:.0f}"`: round half-to-even to an integer and render
it in decimal (no exponent, no fractional part). -/
def pyFormatF0 (y : ℚ) : List Char := intRepr (roundHalfEven y)

/-- Serialization of one history value in `CrazyCast.make_prompt`
(crazycast.py line 246): `f"{y:.{max_digits}g}" if y < 10**max_digits else
f"{y:.0f}"`. -/
def serializeHistValue (max_digits : ℕ) (y : ℚ) : List Char :=
  if y < (10 : ℚ) ^ max_digits then pyFormatG max_digits y else pyFormatF0 y

/-- Whether a rendered value uses scientific notation (contains an exponent
marker; the formatters above only ever emit a lowercase `e`). -/
def isScientific (s : List Char) : Bool := s.contains 'e'

/-! ### Forecast-acquisition engine (`CrazyCast.__call__`, lines 293-442) -/

/-- Read-only view of a task instance, as consumed by the engine.  The
timestamps are already rendered with `strftime("%Y-%m-%d %H:%M:%S")`, the way
the engine itself consumes them. -/
structure TaskInstance where
  past_timestamps : List (List Char)
  past_values : List ℚ
  future_timestamps : List (List Char)
  max_crazycast_batch_size : Option ℕ

/-- One response of the completion backend: the choices' message contents and
the backend-reported token usage. -/
structure ClientResponse where
  choices : List (List Char)
  prompt_tokens : ℕ
  completion_tokens : ℕ

/-- The completion backend, modelled as a deterministic external collaborator:
given the 0-based round index and the requested batch size, it returns one
response.  (The engine passes the same conversation every round, so the round
index and batch size are the only varying request data.) -/
def CompletionClient : Type := ℕ → ℕ → ClientResponse

/-- Python truthiness of the optional integer `batch_size` (`None` and `0` are
falsy). -/
def pyTruthy (b : Option ℕ) : Bool :=
  match b with
  | none => false
  | some n => n ≠ 0

/-- `default_batch_size = n_samples if not self.batch_size else self.batch_size`. -/
def effectiveDefaultBatchSize (cfg : CrazyCast) (n_samples : ℕ) : ℕ :=
  if pyTruthy cfg.batch_size then cfg.batch_size.getD 0 else n_samples

/-- Errors an acquisition call can raise.  `configBudget` and
`configRetryBatch` are the two `assert`s at lines 318-324; `zeroDivision` is
the `default_batch_size // batch_size` division at line 347 when the capped
batch size is `0`; `insufficientSamples` is the `RuntimeError` at line 413
(carrying the requested and achieved counts); `stackIndexError` is the numpy
`IndexError` raised by `np.array(valid_forecasts)[:, :, None]` at line 437
when `valid_forecasts` is empty (a 1-dimensional empty array cannot be
indexed with two slices). -/
inductive CCError where
  | configBudget
  | configRetryBatch
  | zeroDivision
  | insufficientSamples (requested achieved : ℕ)
  | stackIndexError
deriving DecidableEq

/-- Mutable per-call state of the rejection-sampling loop.  `valid`,
`llm_outputs` and the token counters mirror the Python locals; `requests`,
`validLens` and `accepted` are observation traces mirroring what the loop
logs each round (the requested batch size at line 355, the post-truncation
valid count at line 407) and the full acceptance-ordered list of parsed
forecasts before any truncation. -/
structure LoopState where
  valid : List (List ℚ)
  llm_outputs : List (List Char)
  tokens_input : ℕ
  tokens_output : ℕ
  requests : List ℕ
  validLens : List ℕ
  accepted : List (List ℚ)

/-- The empty initial loop state. -/
def initState : LoopState :=
  { valid := [], llm_outputs := [], tokens_input := 0, tokens_output := 0,
    requests := [], validLens := [], accepted := [] }

/-- Per-choice handling (lines 365-395): record the raw text, then try to
parse it; on success append the forecast to the valid list (and to the
acceptance trace), on failure drop the candidate. -/
def processChoice (targets : List (List Char)) (st : LoopState) (content : List Char) :
    LoopState :=
  let st := { st with llm_outputs := st.llm_outputs ++ [content] }
  match parseForecast targets content with
  | some f => { st with valid := st.valid ++ [f], accepted := st.accepted ++ [f] }
  | none => st

/-- Batch size recomputed after a round (lines 398-404): with a task cap,
`min(max(n_samples - len(valid_forecasts), batch_size_on_retry),
max_batch_size)` (computed before the truncation of `valid_forecasts`, in
`int` arithmetic); without a cap, the constant `batch_size_on_retry`. -/
def nextBatchSize (cfg : CrazyCast) (ti : TaskInstance) (n_samples validLen : ℕ) : ℕ :=
  match ti.max_crazycast_batch_size with
  | some mbs => (min (max ((n_samples : ℤ) - validLen) (cfg.batch_size_on_retry : ℤ)) mbs).toNat
  | none => cfg.batch_size_on_retry

/-- One request round (lines 355-395): issue the generation request for
`batchSize` candidates, accumulate the reported token usage unconditionally,
and process every returned choice independently. -/
def ccRoundState (ti : TaskInstance) (client : CompletionClient)
    (round batchSize : ℕ) (st : LoopState) : LoopState :=
  let resp := client round batchSize
  let st1 := { st with
    requests := st.requests ++ [batchSize],
    tokens_input := st.tokens_input + resp.prompt_tokens,
    tokens_output := st.tokens_output + resp.completion_tokens }
  resp.choices.foldl (processChoice ti.future_timestamps) st1

/-- End-of-round truncation (line 406): `valid_forecasts =
valid_forecasts[:n_samples]`, recording the post-truncation valid count
(mirroring the log at line 407). -/
def ccTruncState (n_samples : ℕ) (st : LoopState) : LoopState :=
  { st with valid := st.valid.take n_samples,
            validLens := st.validLens ++ [(st.valid.take n_samples).length] }

/-- The rejection-sampling loop (lines 354-409): while fewer than `n_samples`
valid forecasts have been collected and retries remain, run one round,
decrement the retry budget, recompute the batch size (from the
pre-truncation valid count, as in the source), and truncate the valid list
to `n_samples`.  The retry counter is the structural fuel; `round` is the
0-based index of the next request. -/
def ccLoop (cfg : CrazyCast) (ti : TaskInstance) (client : CompletionClient)
    (n_samples : ℕ) : ℕ → ℕ → ℕ → LoopState → LoopState
  | 0, _, _, st => st
  | retries + 1, batchSize, round, st =>
    if st.valid.length < n_samples then
      let st2 := ccRoundState ti client round batchSize st
      ccLoop cfg ti client n_samples retries
        (nextBatchSize cfg ti n_samples st2.valid.length) (round + 1)
        (ccTruncState n_samples st2)
    else st

/-- Initial batch size and retry budget (lines 344-350): with a task cap the
first batch is clamped to the cap and the retry budget is compensated by
`default_batch_size // batch_size` extra retries (`ZeroDivisionError` when
the clamped batch size is `0`); without a cap, the defaults are used. -/
def ccInit (cfg : CrazyCast) (ti : TaskInstance) (n_samples : ℕ) :
    Except CCError (ℕ × ℕ) :=
  let d := effectiveDefaultBatchSize cfg n_samples
  match ti.max_crazycast_batch_size with
  | some mbs =>
    let b := min d mbs
    if b = 0 then .error .zeroDivision
    else .ok (b, cfg.n_retries + d / b)
  | none => .ok (d, cfg.n_retries)

/-- The loop state produced by one acquisition call once the precondition
checks and batch-size initialization have succeeded. -/
def ccRun (cfg : CrazyCast) (ti : TaskInstance) (client : CompletionClient)
    (n_samples bs0 r0 : ℕ) : LoopState :=
  ccLoop cfg ti client n_samples r0 bs0 0 initState

/-- The result reported by a successful acquisition call: the stacked
3-dimensional sample array (trailing axis of size 1) and the `extra_info`
fields (token totals, all raw outputs, and the rounded call cost when
`token_cost` is configured). -/
structure CCResult where
  samples : List (List (List ℚ))
  total_input_tokens : ℕ
  total_output_tokens : ℕ
  llm_outputs : List (List Char)
  total_token_cost : Option ℚ
deriving DecidableEq

/-- Post-loop phase of `CrazyCast.__call__` (lines 411-442): the
insufficient-samples check, cost accounting (which updates the lifetime
accumulator), and the numpy stacking `np.array(valid_forecasts)[:, :, None]`
(which raises `IndexError` on an empty valid list, since a 1-dimensional
empty array cannot be indexed with two slices). -/
def ccFinish (cfg : CrazyCast) (n_samples : ℕ) (total_cost : ℚ) (st : LoopState) :
    Except CCError CCResult × ℚ :=
  if cfg.fail_on_invalid ∧ st.valid.length < n_samples then
    (.error (.insufficientSamples n_samples st.valid.length), total_cost)
  else
    let costInfo : Option ℚ × ℚ :=
      match cfg.token_cost with
      | none => (none, total_cost)
      | some tc =>
        let current := pyRound2 ((st.tokens_input : ℚ) / 1000 * tc.1
          + (st.tokens_output : ℚ) / 1000 * tc.2)
        (some current, total_cost + current)
    match st.valid with
    | [] => (.error .stackIndexError, costInfo.2)
    | f :: fs =>
      (.ok { samples := (f :: fs).map (fun row => row.map (fun q => [q])),
             total_input_tokens := st.tokens_input,
             total_output_tokens := st.tokens_output,
             llm_outputs := st.llm_outputs,
             total_token_cost := costInfo.1 }, costInfo.2)

/-- `CrazyCast.__call__` (lines 293-442), threading the engine's lifetime
cost accumulator `self.total_cost` explicitly: returns the call outcome
together with the new accumulator value.  Order of effects is the source
order: precondition asserts, batch-size initialization, the
rejection-sampling loop, then `ccFinish`. -/
def ccCall (cfg : CrazyCast) (ti : TaskInstance) (client : CompletionClient)
    (n_samples : ℕ) (total_cost : ℚ) : Except CCError CCResult × ℚ :=
  if pyTruthy cfg.batch_size ∧ cfg.batch_size.getD 0 * cfg.n_retries < n_samples then
    (.error .configBudget, total_cost)
  else if effectiveDefaultBatchSize cfg n_samples < cfg.batch_size_on_retry then
    (.error .configRetryBatch, total_cost)
  else
    match ccInit cfg ti n_samples with
    | .error e => (.error e, total_cost)
    | .ok (bs0, r0) =>
      ccFinish cfg n_samples total_cost (ccRun cfg ti client n_samples bs0 r0)

/-! ### Shared concrete fixtures for witnesses and counterexamples -/

/-- A concrete task instance with one target timestamp and no batch cap. -/
def tiW : TaskInstance :=
  { past_timestamps := [], past_values := [],
    future_timestamps := ["2020-01-01 00:00:00".data], max_crazycast_batch_size := none }

/-- A backend that always returns one well-formed forecast per requested
sample, reporting 100 prompt and 50 completion tokens. -/
def okClient : CompletionClient := fun _ n =>
  { choices := List.replicate n "<forecast>(2020-01-01 00:00:00, 7)</forecast>".data,
    prompt_tokens := 100, completion_tokens := 50 }

/-- A backend whose outputs never contain a forecast block. -/
def junkClient : CompletionClient := fun _ _ =>
  { choices := ["no forecast here".data], prompt_tokens := 10, completion_tokens := 5 }

/-- A baseline engine configuration used by the concrete instances below. -/
def cfgW : CrazyCast :=
  { model := "gpt-4".data, use_context := true, fail_on_invalid := true,
    n_retries := 3, batch_size_on_retry := 1, batch_size := none,
    token_cost := none, temperature := 1 }

/-! ### C3: precondition checks -/

/-- C3: the precondition checks run before any generation request is issued:
if `batch_size` is truthy and `batch_size * n_retries < n_samples` the call
fails with the retry-budget configuration error, and otherwise if
`batch_size_on_retry` exceeds the effective default batch size the call fails
with the retry-batch configuration error — in both cases identically for
every backend (the client is never contacted) and with the lifetime cost
accumulator untouched. -/
theorem c3_precondition_checks (cfg : CrazyCast) (ti : TaskInstance)
    (client : CompletionClient) (n_samples : ℕ) (tc : ℚ) :
    (pyTruthy cfg.batch_size = true →
      cfg.batch_size.getD 0 * cfg.n_retries < n_samples →
      ccCall cfg ti client n_samples tc = (.error .configBudget, tc))
    ∧ (¬ (pyTruthy cfg.batch_size = true ∧
          cfg.batch_size.getD 0 * cfg.n_retries < n_samples) →
        effectiveDefaultBatchSize cfg n_samples < cfg.batch_size_on_retry →
        ccCall cfg ti client n_samples tc = (.error .configRetryBatch, tc)) := by
  constructor
  · intro h1 h2
    unfold ccCall
    rw [if_pos ⟨h1, h2⟩]
  · intro h1 h2
    unfold ccCall
    rw [if_neg h1, if_pos h2]

/-- The configuration of the spec's worked example with `n_retries` adjusted
to `2` so that the budget check `2 * 2 >= 5` fails. -/
def cfgC3 : CrazyCast :=
  { cfgW with batch_size := some 2, n_retries := 2, batch_size_on_retry := 2 }

/-- Witness for C3 at the spec's example: `n_samples = 5`, `batch_size = 2`:
with `n_retries = 3` the budget check passes (`2 * 3 ≥ 5`), while with
`n_retries = 2` the call fails with the configuration error (for any backend,
here `junkClient`). -/
theorem c3_precondition_checks_witness :
    ¬ ((2 : ℕ) * 3 < 5)
    ∧ ccCall cfgC3 tiW junkClient 5 0 = (.error .configBudget, 0) :=
  ⟨by decide, (c3_precondition_checks cfgC3 tiW junkClient 5 0).1 (by decide) (by decide)⟩


/-- Helper: whenever the post-loop phase reports the insufficient-samples
error, the lifetime cost accumulator is returned unchanged. -/
theorem ccFinish_insufficient_snd (cfg : CrazyCast) (n_samples : ℕ) (tc : ℚ)
    (st : LoopState) (a b : ℕ)
    (h : (ccFinish cfg n_samples tc st).fst = .error (.insufficientSamples a b)) :
    (ccFinish cfg n_samples tc st).snd = tc := by
  unfold ccFinish at h ⊢
  by_cases hf : cfg.fail_on_invalid = true ∧ st.valid.length < n_samples
  · rw [if_pos hf]
  · rw [if_neg hf] at h ⊢
    cases hv : st.valid with
    | nil => rw [hv] at h; simp at h
    | cons f fs => rw [hv] at h; simp at h

/-- C10: an acquisition call that aborts with the insufficient-samples error
leaves the engine's lifetime cost accumulator unchanged — cost accounting
only happens after the insufficient-samples check. -/
theorem c10_failed_call_not_charged (cfg : CrazyCast) (ti : TaskInstance)
    (client : CompletionClient) (n_samples : ℕ) (tc : ℚ) (a b : ℕ)
    (h : (ccCall cfg ti client n_samples tc).fst = .error (.insufficientSamples a b)) :
    (ccCall cfg ti client n_samples tc).snd = tc := by
  unfold ccCall at h ⊢
  by_cases h1 : pyTruthy cfg.batch_size = true ∧
      cfg.batch_size.getD 0 * cfg.n_retries < n_samples
  · rw [if_pos h1]
  · rw [if_neg h1] at h ⊢
    by_cases h2 : effectiveDefaultBatchSize cfg n_samples < cfg.batch_size_on_retry
    · rw [if_pos h2]
    · rw [if_neg h2] at h ⊢
      cases hi : ccInit cfg ti n_samples with
      | error e => rfl
      | ok p =>
        obtain ⟨bs0, r0⟩ := p
        rw [hi] at h
        exact ccFinish_insufficient_snd cfg n_samples tc _ a b h



/-- The engine configuration used for the C10 witness: `fail_on_invalid` with
a configured token cost. -/
def cfgC10 : CrazyCast :=
  { cfgW with token_cost := some (2, 3) }

/-- Witness for C10: a concrete failing call (every candidate rejected, three
rounds of tokens consumed) leaves the lifetime accumulator at its prior
value `7`. -/
theorem c10_failed_call_not_charged_witness :
    (ccCall cfgC10 tiW junkClient 2 7).snd = 7 :=
  c10_failed_call_not_charged cfgC10 tiW junkClient 2 7 2 0 (by with_unfolding_all rfl)

/-- Helper: on a successful post-loop phase with a configured token cost, the
reported cost is the rounded price of the cumulative token counters and is
added to the lifetime accumulator. -/
theorem ccFinish_ok_cost (cfg : CrazyCast) (n_samples : ℕ) (tc : ℚ)
    (st : LoopState) (pin pout : ℚ) (r : CCResult)
    (hc : cfg.token_cost = some (pin, pout))
    (h : (ccFinish cfg n_samples tc st).fst = .ok r) :
    r.total_input_tokens = st.tokens_input
    ∧ r.total_output_tokens = st.tokens_output
    ∧ r.total_token_cost = some (pyRound2 ((st.tokens_input : ℚ) / 1000 * pin
        + (st.tokens_output : ℚ) / 1000 * pout))
    ∧ (ccFinish cfg n_samples tc st).snd = tc + pyRound2 ((st.tokens_input : ℚ) / 1000 * pin
        + (st.tokens_output : ℚ) / 1000 * pout) := by
  unfold ccFinish at h ⊢
  by_cases hf : cfg.fail_on_invalid = true ∧ st.valid.length < n_samples
  · rw [if_pos hf] at h; simp at h
  · rw [if_neg hf] at h ⊢
    rw [hc] at h ⊢
    cases hv : st.valid with
    | nil => rw [hv] at h; simp at h
    | cons f fs =>
      rw [hv] at h
      simp only [Except.ok.injEq] at h
      subst h
      simp

/-- C7: on an engine configured with `token_cost`, a successful call reports
exactly `round(input_tokens/1000 * input_price + output_tokens/1000 *
output_price, 2)` computed from the cumulative token counts of the whole
call, and this amount is added to the engine's lifetime cost accumulator. -/
theorem c7_cost_accounting (cfg : CrazyCast) (ti : TaskInstance)
    (client : CompletionClient) (n_samples : ℕ) (tc : ℚ) (pin pout : ℚ) (r : CCResult)
    (hc : cfg.token_cost = some (pin, pout))
    (h : (ccCall cfg ti client n_samples tc).fst = .ok r) :
    r.total_token_cost = some (pyRound2 ((r.total_input_tokens : ℚ) / 1000 * pin
      + (r.total_output_tokens : ℚ) / 1000 * pout))
    ∧ (ccCall cfg ti client n_samples tc).snd
      = tc + pyRound2 ((r.total_input_tokens : ℚ) / 1000 * pin
        + (r.total_output_tokens : ℚ) / 1000 * pout) := by
  unfold ccCall at h ⊢
  by_cases h1 : pyTruthy cfg.batch_size = true ∧
      cfg.batch_size.getD 0 * cfg.n_retries < n_samples
  · rw [if_pos h1] at h; simp at h
  · rw [if_neg h1] at h ⊢
    by_cases h2 : effectiveDefaultBatchSize cfg n_samples < cfg.batch_size_on_retry
    · rw [if_pos h2] at h; simp at h
    · rw [if_neg h2] at h ⊢
      cases hi : ccInit cfg ti n_samples with
      | error e => rw [hi] at h; simp at h
      | ok p =>
        obtain ⟨bs0, r0⟩ := p
        rw [hi] at h
        obtain ⟨hin, hout, hcost, hsnd⟩ :=
          ccFinish_ok_cost cfg n_samples tc (ccRun cfg ti client n_samples bs0 r0) pin pout r hc h
        rw [hin, hout]
        exact ⟨hcost, hsnd⟩

/-- The engine configuration used for the C7 witness: prices 2 and 3 per
1000 input/output tokens. -/
def cfgC7 : CrazyCast :=
  { cfgW with token_cost := some (2, 3) }

/-- The concrete result of `ccCall cfgC7 tiW okClient 1 0`: one accepted
forecast, 100 input and 50 output tokens, cost
`round(100/1000*2 + 50/1000*3, 2) = 0.35`. -/
def resultC7 : CCResult :=
  { samples := [[[7]]],
    total_input_tokens := 100,
    total_output_tokens := 50,
    llm_outputs := ["<forecast>(2020-01-01 00:00:00, 7)</forecast>".data],
    total_token_cost := some (7 / 20) }

/-- Witness for C7: the concrete successful call reports cost
`0.35 = round(100/1000*2 + 50/1000*3, 2)` and adds it to the lifetime
accumulator. -/
theorem c7_cost_accounting_witness :
    resultC7.total_token_cost = some (pyRound2 ((resultC7.total_input_tokens : ℚ) / 1000 * 2
      + (resultC7.total_output_tokens : ℚ) / 1000 * 3))
    ∧ (ccCall cfgC7 tiW okClient 1 0).snd
      = 0 + pyRound2 ((resultC7.total_input_tokens : ℚ) / 1000 * 2
        + (resultC7.total_output_tokens : ℚ) / 1000 * 3) :=
  c7_cost_accounting cfgC7 tiW okClient 1 0 2 3 resultC7 rfl (by with_unfolding_all rfl)

/-! ### C8: history-value serialization -/

/-- Every character emitted by `digitChar10` is a decimal digit. -/
theorem digitChar10_isDigit (m : ℕ) : (digitChar10 m).isDigit = true := by
  unfold digitChar10
  split <;> decide

/-- Every character accumulated by `natReprAux` over a digit-only accumulator
is a decimal digit. -/
theorem natReprAux_digits : ∀ (fuel n : ℕ) (acc : List Char),
    (∀ c ∈ acc, c.isDigit = true) → ∀ c ∈ natReprAux fuel n acc, c.isDigit = true := by
  intro fuel
  induction fuel with
  | zero => intro n acc hacc; exact hacc
  | succ f ih =>
    intro n acc hacc c hc
    unfold natReprAux at hc
    by_cases hn : n < 10
    · rw [if_pos hn] at hc
      rcases List.mem_cons.mp hc with rfl | hc
      · exact digitChar10_isDigit n
      · exact hacc c hc
    · rw [if_neg hn] at hc
      refine ih (n / 10) _ ?_ c hc
      intro d hd
      rcases List.mem_cons.mp hd with rfl | hd
      · exact digitChar10_isDigit (n % 10)
      · exact hacc d hd

/-- Every character of `natRepr n` is a decimal digit. -/
theorem natRepr_digits (n : ℕ) : ∀ c ∈ natRepr n, c.isDigit = true :=
  natReprAux_digits (n + 1) n [] (by intro c hc; cases hc)

/-- Python's `str` of an integer never contains an exponent marker. -/
theorem isScientific_intRepr (z : ℤ) : isScientific (intRepr z) = false := by
  have he : 'e' ∉ intRepr z := by
    intro hmem
    have hdig : ('e' : Char).isDigit = true := by
      unfold intRepr at hmem
      by_cases hz : z < 0
      · rw [if_pos hz] at hmem
        rcases List.mem_cons.mp hmem with h1 | h1
        · exact absurd h1 (by decide)
        · exact natRepr_digits _ 'e' h1
      · rw [if_neg hz] at hmem
        exact natRepr_digits _ 'e' hmem
    exact absurd hdig (by decide)
  simp only [isScientific, List.contains]
  rw [Bool.eq_false_iff]
  intro hel
  exact he (List.elem_iff.mp hel)

/-- Counterexample for C8 as stated: the branch condition is the signed
comparison `y < 10 ** max_digits`, not a magnitude comparison, and values in
the `%g` branch can still be rendered in scientific notation: at
`max_digits = 6`, the value `-2000000` has magnitude `≥ 10^6` yet is rendered
`-2e+06` (scientific, not fixed-point), and the small value `0.00001` is
rendered `1e-05` (scientific). -/
theorem c8_counterexample :
    serializeHistValue 6 (-2000000) = "-2e+06".data
    ∧ isScientific (serializeHistValue 6 (-2000000)) = true
    ∧ (10 : ℚ) ^ (6 : ℕ) ≤ |(-2000000 : ℚ)|
    ∧ serializeHistValue 6 (1 / 100000) = "1e-05".data
    ∧ isScientific (serializeHistValue 6 (1 / 100000)) = true := by
  refine ⟨?_, ?_, ?_, ?_, ?_⟩ <;> with_unfolding_all decide

/-- C8 (amended): the history-value serializer switches to the fixed-point
zero-decimal format exactly when the signed value reaches `10 ^ max_digits`
(so such large positive values are never rendered in scientific notation),
and otherwise uses the `%g` general format with `max_digits` significant
digits, which may itself produce scientific notation (for large negative
values or very small magnitudes). -/
theorem c8_amended_serialization (max_digits : ℕ) (y : ℚ) :
    ((10 : ℚ) ^ max_digits ≤ y →
      serializeHistValue max_digits y = pyFormatF0 y
      ∧ isScientific (serializeHistValue max_digits y) = false)
    ∧ (y < (10 : ℚ) ^ max_digits →
      serializeHistValue max_digits y = pyFormatG max_digits y) := by
  constructor
  · intro h
    have hn : ¬ y < (10 : ℚ) ^ max_digits := not_lt.mpr h
    unfold serializeHistValue
    rw [if_neg hn]
    exact ⟨rfl, isScientific_intRepr _⟩
  · intro h
    unfold serializeHistValue
    rw [if_pos h]

/-- Witness for the amended C8 at concrete inputs: `2000000 ≥ 10^6` takes the
fixed-point branch (not scientific), and `123 < 10^6` takes the `%g` branch. -/
theorem c8_amended_serialization_witness :
    (serializeHistValue 6 2000000 = pyFormatF0 2000000
      ∧ isScientific (serializeHistValue 6 2000000) = false)
    ∧ serializeHistValue 6 123 = pyFormatG 6 123 :=
  ⟨(c8_amended_serialization 6 2000000).1 (by with_unfolding_all decide),
   (c8_amended_serialization 6 123).2 (by with_unfolding_all decide)⟩

/-! ### Loop bookkeeping lemmas -/

/-- `processChoice` never touches the request trace, the token counters or
the per-round valid-count trace. -/
theorem processChoice_aux (t : List (List Char)) (st : LoopState) (c : List Char) :
    (processChoice t st c).requests = st.requests
    ∧ (processChoice t st c).tokens_input = st.tokens_input
    ∧ (processChoice t st c).tokens_output = st.tokens_output
    ∧ (processChoice t st c).validLens = st.validLens := by
  unfold processChoice
  cases parseForecast t c <;> simp

/-- Folding `processChoice` over a batch of choices never touches the request
trace, the token counters or the per-round valid-count trace. -/
theorem foldl_processChoice_aux (t : List (List Char)) :
    ∀ (cs : List (List Char)) (st : LoopState),
    (cs.foldl (processChoice t) st).requests = st.requests
    ∧ (cs.foldl (processChoice t) st).tokens_input = st.tokens_input
    ∧ (cs.foldl (processChoice t) st).tokens_output = st.tokens_output
    ∧ (cs.foldl (processChoice t) st).validLens = st.validLens := by
  intro cs
  induction cs with
  | nil => intro st; simp
  | cons c cs ih =>
    intro st
    obtain ⟨h1, h2, h3, h4⟩ := ih (processChoice t st c)
    obtain ⟨g1, g2, g3, g4⟩ := processChoice_aux t st c
    simp only [List.foldl_cons]
    exact ⟨h1.trans g1, h2.trans g2, h3.trans g3, h4.trans g4⟩

/-- Traces after one round: the request trace grows by the issued batch size,
the token counters grow by the backend-reported usage of this round, and the
valid-count trace is untouched (it is appended at truncation time). -/
theorem ccRoundState_aux (ti : TaskInstance) (client : CompletionClient)
    (round batchSize : ℕ) (st : LoopState) :
    (ccRoundState ti client round batchSize st).requests = st.requests ++ [batchSize]
    ∧ (ccRoundState ti client round batchSize st).tokens_input
      = st.tokens_input + (client round batchSize).prompt_tokens
    ∧ (ccRoundState ti client round batchSize st).tokens_output
      = st.tokens_output + (client round batchSize).completion_tokens
    ∧ (ccRoundState ti client round batchSize st).validLens = st.validLens := by
  unfold ccRoundState
  obtain ⟨h1, h2, h3, h4⟩ := foldl_processChoice_aux ti.future_timestamps
    (client round batchSize).choices
    { st with
      requests := st.requests ++ [batchSize],
      tokens_input := st.tokens_input + (client round batchSize).prompt_tokens,
      tokens_output := st.tokens_output + (client round batchSize).completion_tokens }
  exact ⟨h1, h2, h3, h4⟩

/-- Sum of a per-round quantity `g round batchSize` over a request trace that
starts at round index `k`. -/
def roundSum (g : ℕ → ℕ → ℕ) : ℕ → List ℕ → ℕ
  | _, [] => 0
  | k, b :: r => g k b + roundSum g (k + 1) r

/-- A loop that starts with enough valid forecasts does nothing. -/
theorem ccLoop_of_done (cfg : CrazyCast) (ti : TaskInstance) (client : CompletionClient)
    (n_samples : ℕ) (fuel bs k : ℕ) (st : LoopState)
    (h : ¬ st.valid.length < n_samples) :
    ccLoop cfg ti client n_samples fuel bs k st = st := by
  cases fuel with
  | zero => rfl
  | succ f =>
    unfold ccLoop
    rw [if_neg h]

/-- Trace decomposition of the loop: the final request trace extends the
initial one by some `tr`, and the token counters grow by exactly the sum of
the backend-reported usage over the rounds of `tr` (indexed from `k`). -/
theorem ccLoop_trace (cfg : CrazyCast) (ti : TaskInstance) (client : CompletionClient)
    (n_samples : ℕ) :
    ∀ (fuel bs k : ℕ) (st : LoopState), ∃ tr : List ℕ,
    (ccLoop cfg ti client n_samples fuel bs k st).requests = st.requests ++ tr
    ∧ (ccLoop cfg ti client n_samples fuel bs k st).tokens_input
      = st.tokens_input + roundSum (fun i b => (client i b).prompt_tokens) k tr
    ∧ (ccLoop cfg ti client n_samples fuel bs k st).tokens_output
      = st.tokens_output + roundSum (fun i b => (client i b).completion_tokens) k tr := by
  intro fuel
  induction fuel with
  | zero =>
    intro bs k st
    exact ⟨[], by simp [ccLoop, roundSum]⟩
  | succ f ih =>
    intro bs k st
    by_cases hc : st.valid.length < n_samples
    · obtain ⟨tr2, e1, e2, e3⟩ := ih (nextBatchSize cfg ti n_samples
        (ccRoundState ti client k bs st).valid.length) (k + 1)
        (ccTruncState n_samples (ccRoundState ti client k bs st))
      obtain ⟨r1, r2, r3, _⟩ := ccRoundState_aux ti client k bs st
      refine ⟨bs :: tr2, ?_, ?_, ?_⟩
      · unfold ccLoop
        rw [if_pos hc, e1]
        simp [ccTruncState, r1]
      · unfold ccLoop
        rw [if_pos hc, e2]
        simp [ccTruncState, r2, roundSum, Nat.add_assoc]
      · unfold ccLoop
        rw [if_pos hc, e3]
        simp [ccTruncState, r3, roundSum, Nat.add_assoc]
    · exact ⟨[], by simp [ccLoop_of_done cfg ti client n_samples _ bs k st hc, roundSum]⟩

/-- C6: the token counters reported at the end of an acquisition call equal
the sum over all loop rounds of the backend-reported prompt and completion
token counts, accumulated unconditionally per round (the sum ranges over the
request trace, independently of how many candidates of a round parsed), and
a successful call reports exactly these counters. -/
theorem c6_token_accounting (cfg : CrazyCast) (ti : TaskInstance)
    (client : CompletionClient) (n_samples bs0 r0 : ℕ) (tc : ℚ) :
    ((ccRun cfg ti client n_samples bs0 r0).tokens_input
      = roundSum (fun i b => (client i b).prompt_tokens) 0
          (ccRun cfg ti client n_samples bs0 r0).requests)
    ∧ ((ccRun cfg ti client n_samples bs0 r0).tokens_output
      = roundSum (fun i b => (client i b).completion_tokens) 0
          (ccRun cfg ti client n_samples bs0 r0).requests)
    ∧ (∀ r : CCResult, ccInit cfg ti n_samples = .ok (bs0, r0) →
        (ccCall cfg ti client n_samples tc).fst = .ok r →
        r.total_input_tokens = (ccRun cfg ti client n_samples bs0 r0).tokens_input
        ∧ r.total_output_tokens = (ccRun cfg ti client n_samples bs0 r0).tokens_output) := by
  obtain ⟨tr, e1, e2, e3⟩ := ccLoop_trace cfg ti client n_samples r0 bs0 0 initState
  refine ⟨?_, ?_, ?_⟩
  · unfold ccRun
    rw [e2, e1]
    simp [initState]
  · unfold ccRun
    rw [e3, e1]
    simp [initState]
  · intro r hi h
    unfold ccCall at h
    by_cases h1 : pyTruthy cfg.batch_size = true ∧
        cfg.batch_size.getD 0 * cfg.n_retries < n_samples
    · rw [if_pos h1] at h; simp at h
    · rw [if_neg h1] at h
      by_cases h2 : effectiveDefaultBatchSize cfg n_samples < cfg.batch_size_on_retry
      · rw [if_pos h2] at h; simp at h
      · rw [if_neg h2] at h
        rw [hi] at h
        have h3 : (ccFinish cfg n_samples tc (ccRun cfg ti client n_samples bs0 r0)).fst
            = .ok r := h
        clear h
        unfold ccFinish at h3
        by_cases hf : cfg.fail_on_invalid = true
            ∧ (ccRun cfg ti client n_samples bs0 r0).valid.length < n_samples
        · rw [if_pos hf] at h3; simp at h3
        · rw [if_neg hf] at h3
          cases hv : (ccRun cfg ti client n_samples bs0 r0).valid with
          | nil => rw [hv] at h3; simp at h3
          | cons f fs =>
            rw [hv] at h3
            simp only [Except.ok.injEq] at h3
            subst h3
            exact ⟨rfl, rfl⟩

/-! ### C2: batch-size policy -/

/-- Policy decomposition of the loop traces: the request trace extends by
`tr` and the valid-count trace by `lens` of equal length; the first new
request uses the entry batch size, and every subsequent request uses the
batch size recomputed (by `nextBatchSize`) from the valid count recorded at
the end of the previous round. -/
theorem ccLoop_policy (cfg : CrazyCast) (ti : TaskInstance) (client : CompletionClient)
    (n_samples : ℕ) :
    ∀ (fuel bs k : ℕ) (st : LoopState), ∃ tr lens : List ℕ,
    (ccLoop cfg ti client n_samples fuel bs k st).requests = st.requests ++ tr
    ∧ (ccLoop cfg ti client n_samples fuel bs k st).validLens = st.validLens ++ lens
    ∧ tr.length = lens.length
    ∧ (0 < tr.length → tr.getD 0 0 = bs)
    ∧ (∀ i, i + 1 < tr.length →
        tr.getD (i + 1) 0 = nextBatchSize cfg ti n_samples (lens.getD i 0)) := by
  intro fuel
  induction fuel with
  | zero =>
    intro bs k st
    exact ⟨[], [], by simp [ccLoop], by simp [ccLoop], rfl, by simp, by simp⟩
  | succ f ih =>
    intro bs k st
    by_cases hc : st.valid.length < n_samples
    · obtain ⟨tr2, lens2, e1, e2, e3, e4, e5⟩ := ih
        (nextBatchSize cfg ti n_samples (ccRoundState ti client k bs st).valid.length)
        (k + 1) (ccTruncState n_samples (ccRoundState ti client k bs st))
      obtain ⟨r1, _, _, r4⟩ := ccRoundState_aux ti client k bs st
      have hreq : (ccTruncState n_samples (ccRoundState ti client k bs st)).requests
          = st.requests ++ [bs] := by
        simp [ccTruncState, r1]
      have hlens : (ccTruncState n_samples (ccRoundState ti client k bs st)).validLens
          = st.validLens
            ++ [((ccRoundState ti client k bs st).valid.take n_samples).length] := by
        simp [ccTruncState, r4]
      have hunf : ccLoop cfg ti client n_samples (f + 1) bs k st
          = if st.valid.length < n_samples then
              ccLoop cfg ti client n_samples f
                (nextBatchSize cfg ti n_samples (ccRoundState ti client k bs st).valid.length)
                (k + 1) (ccTruncState n_samples (ccRoundState ti client k bs st))
            else st := rfl
      have hstep : ccLoop cfg ti client n_samples (f + 1) bs k st
          = ccLoop cfg ti client n_samples f
              (nextBatchSize cfg ti n_samples (ccRoundState ti client k bs st).valid.length)
              (k + 1) (ccTruncState n_samples (ccRoundState ti client k bs st)) := by
        rw [hunf]
        exact if_pos hc
      refine ⟨bs :: tr2,
        ((ccRoundState ti client k bs st).valid.take n_samples).length :: lens2,
        ?_, ?_, ?_, ?_, ?_⟩
      · rw [hstep, e1, hreq]
        simp
      · rw [hstep, e2, hlens]
        simp
      · simp [e3]
      · intro _
        rfl
      · intro i hilen
        have hlen2 : i + 1 < tr2.length + 1 := by simpa using hilen
        cases i with
        | zero =>
          have htr2 : 0 < tr2.length := by omega
          have hlt : ((ccRoundState ti client k bs st).valid.take n_samples).length
              < n_samples := by
            by_contra hge
            have hdone := ccLoop_of_done cfg ti client n_samples f
              (nextBatchSize cfg ti n_samples (ccRoundState ti client k bs st).valid.length)
              (k + 1) (ccTruncState n_samples (ccRoundState ti client k bs st))
              (by simpa [ccTruncState] using hge)
            rw [hdone] at e1
            have hlenz := congrArg List.length e1
            rw [List.length_append] at hlenz
            omega
          have hsame : ((ccRoundState ti client k bs st).valid.take n_samples).length
              = (ccRoundState ti client k bs st).valid.length := by
            rw [List.length_take] at hlt ⊢
            omega
          rw [List.getD_cons_succ, List.getD_cons_zero, e4 htr2, hsame]
        | succ j =>
          have hj : j + 1 < tr2.length := by omega
          rw [List.getD_cons_succ, List.getD_cons_succ, e5 j hj]
    · refine ⟨[], [], ?_, ?_, rfl, by simp, by simp⟩
      · rw [ccLoop_of_done cfg ti client n_samples _ bs k st hc]
        simp
      · rw [ccLoop_of_done cfg ti client n_samples _ bs k st hc]
        simp

/-- C2: the batch-size policy of an acquisition call.  With a task-advertised
cap, the initial batch is `min(default_batch_size, cap)` and the retry budget
is `n_retries + default_batch_size // capped_batch_size`; without a cap, the
initial batch is the effective default (which is `n_samples` when
`batch_size` is unset) and the budget is `n_retries`.  The first request of
the loop uses the initial batch size, and every subsequent request uses
`min(max(n_samples - valid_count, batch_size_on_retry), cap)` with the valid
count recorded at the end of the previous round (or the constant
`batch_size_on_retry` without a cap). -/
theorem c2_batch_size_policy (cfg : CrazyCast) (ti : TaskInstance)
    (client : CompletionClient) (n_samples bs0 r0 : ℕ)
    (hi : ccInit cfg ti n_samples = .ok (bs0, r0)) :
    (∀ mbs, ti.max_crazycast_batch_size = some mbs →
        bs0 = min (effectiveDefaultBatchSize cfg n_samples) mbs
        ∧ r0 = cfg.n_retries + effectiveDefaultBatchSize cfg n_samples
            / min (effectiveDefaultBatchSize cfg n_samples) mbs)
    ∧ (ti.max_crazycast_batch_size = none →
        bs0 = effectiveDefaultBatchSize cfg n_samples ∧ r0 = cfg.n_retries)
    ∧ (0 < (ccRun cfg ti client n_samples bs0 r0).requests.length →
        (ccRun cfg ti client n_samples bs0 r0).requests.getD 0 0 = bs0)
    ∧ (∀ i, i + 1 < (ccRun cfg ti client n_samples bs0 r0).requests.length →
        (ccRun cfg ti client n_samples bs0 r0).requests.getD (i + 1) 0
          = match ti.max_crazycast_batch_size with
            | some mbs =>
              (min (max ((n_samples : ℤ)
                  - ((ccRun cfg ti client n_samples bs0 r0).validLens.getD i 0 : ℤ))
                (cfg.batch_size_on_retry : ℤ)) (mbs : ℤ)).toNat
            | none => cfg.batch_size_on_retry) := by
  obtain ⟨tr, lens, e1, e2, e3, e4, e5⟩ :=
    ccLoop_policy cfg ti client n_samples r0 bs0 0 initState
  have hreq : (ccRun cfg ti client n_samples bs0 r0).requests = tr := by
    unfold ccRun
    rw [e1]
    simp [initState]
  have hlens : (ccRun cfg ti client n_samples bs0 r0).validLens = lens := by
    unfold ccRun
    rw [e2]
    simp [initState]
  refine ⟨?_, ?_, ?_, ?_⟩
  · intro mbs hmbs
    simp only [ccInit, hmbs] at hi
    split at hi
    · exact absurd hi (by simp)
    · simp only [Except.ok.injEq, Prod.mk.injEq] at hi
      exact ⟨hi.1.symm, hi.2.symm⟩
  · intro hnone
    simp only [ccInit, hnone] at hi
    simp only [Except.ok.injEq, Prod.mk.injEq] at hi
    exact ⟨hi.1.symm, hi.2.symm⟩
  · intro hpos
    rw [hreq] at hpos ⊢
    exact e4 hpos
  · intro i hib
    rw [hreq] at hib ⊢
    rw [hlens]
    rw [e5 i hib]
    rfl

/-! ### C1: sample-count delivery -/

/-- An `optMapM` success has the same length as its input. -/
theorem optMapM_length (f : α → Option β) :
    ∀ (l : List α) (bs : List β), optMapM f l = some bs → bs.length = l.length := by
  intro l
  induction l with
  | nil =>
    intro bs h
    simp only [optMapM, Option.some.injEq] at h
    subst h
    rfl
  | cons a l ih =>
    intro bs h
    unfold optMapM at h
    cases hf : f a with
    | none => rw [hf] at h; simp at h
    | some b =>
      rw [hf] at h
      cases hm : optMapM f l with
      | none => rw [hm] at h; simp at h
      | some bs2 =>
        rw [hm] at h
        simp only [Option.some.injEq] at h
        subst h
        simp [ih bs2 hm]

/-- An accepted forecast always has exactly one value per requested target
timestamp. -/
theorem parseForecast_length (targets : List (List Char)) (raw : List Char)
    (f : List ℚ) (h : parseForecast targets raw = some f) :
    f.length = targets.length := by
  unfold parseForecast at h
  cases he : extract_html_tags_forecast raw with
  | none => rw [he] at h; simp at h
  | some block =>
    rw [he] at h
    have h2 : (match optMapM parseLine (splitOnChar '\n' (stripParens block)) with
        | none => none
        | some pairs => optMapM (fun t => lookupLast t pairs) targets) = some f := h
    cases hm : optMapM parseLine (splitOnChar '\n' (stripParens block)) with
    | none => rw [hm] at h2; simp at h2
    | some pairs =>
      rw [hm] at h2
      exact optMapM_length _ targets f h2

/-- `processChoice` appends the same (length-`H`) forecasts to both the
valid list and the acceptance trace. -/
theorem processChoice_accepts (t : List (List Char)) (st : LoopState) (c : List Char) :
    ∃ ps : List (List ℚ),
      (processChoice t st c).valid = st.valid ++ ps
      ∧ (processChoice t st c).accepted = st.accepted ++ ps
      ∧ ∀ f ∈ ps, f.length = t.length := by
  unfold processChoice
  cases hp : parseForecast t c with
  | none => exact ⟨[], by simp⟩
  | some f =>
    refine ⟨[f], by simp, by simp, ?_⟩
    intro g hg
    rcases List.mem_singleton.mp hg with rfl
    exact parseForecast_length t c g hp

/-- Folding `processChoice` over a batch appends the same (length-`H`)
forecasts to both the valid list and the acceptance trace. -/
theorem foldl_processChoice_accepts (t : List (List Char)) :
    ∀ (cs : List (List Char)) (st : LoopState),
    ∃ ps : List (List ℚ),
      (cs.foldl (processChoice t) st).valid = st.valid ++ ps
      ∧ (cs.foldl (processChoice t) st).accepted = st.accepted ++ ps
      ∧ ∀ f ∈ ps, f.length = t.length := by
  intro cs
  induction cs with
  | nil => intro st; exact ⟨[], by simp⟩
  | cons c cs ih =>
    intro st
    obtain ⟨ps1, h1, h2, h3⟩ := processChoice_accepts t st c
    obtain ⟨ps2, g1, g2, g3⟩ := ih (processChoice t st c)
    refine ⟨ps1 ++ ps2, ?_, ?_, ?_⟩
    · simp only [List.foldl_cons, g1, h1, List.append_assoc]
    · simp only [List.foldl_cons, g2, h2, List.append_assoc]
    · intro f hf
      rcases List.mem_append.mp hf with hf | hf
      · exact h3 f hf
      · exact g3 f hf

/-- Loop-state well-formedness for C1: the valid list is always the
`n_samples`-prefix of the acceptance trace, and every accepted forecast has
the horizon length. -/
def goodState (n_samples H : ℕ) (st : LoopState) : Prop :=
  st.valid = st.accepted.take n_samples ∧ ∀ f ∈ st.accepted, f.length = H

/-- One round followed by truncation preserves well-formedness, provided the
round was entered with fewer than `n_samples` valid forecasts. -/
theorem ccRound_trunc_good (ti : TaskInstance) (client : CompletionClient)
    (n_samples k bs : ℕ) (st : LoopState)
    (hg : goodState n_samples ti.future_timestamps.length st)
    (hc : st.valid.length < n_samples) :
    goodState n_samples ti.future_timestamps.length
      (ccTruncState n_samples (ccRoundState ti client k bs st)) := by
  obtain ⟨hv, hl⟩ := hg
  have hacc : st.accepted.take n_samples = st.accepted := by
    apply List.take_of_length_le
    have := congrArg List.length hv
    rw [List.length_take] at this
    omega
  have hveq : st.valid = st.accepted := hv.trans hacc
  obtain ⟨ps, g1, g2, g3⟩ := foldl_processChoice_accepts ti.future_timestamps
    (client k bs).choices
    { st with
      requests := st.requests ++ [bs],
      tokens_input := st.tokens_input + (client k bs).prompt_tokens,
      tokens_output := st.tokens_output + (client k bs).completion_tokens }
  constructor
  · show (ccRoundState ti client k bs st).valid.take n_samples
      = (ccRoundState ti client k bs st).accepted.take n_samples
    unfold ccRoundState
    rw [g1, g2]
    simp only [hveq]
  · intro f hf
    have hf2 : f ∈ (ccRoundState ti client k bs st).accepted := hf
    unfold ccRoundState at hf2
    rw [g2] at hf2
    rcases List.mem_append.mp hf2 with hf2 | hf2
    · exact hl f hf2
    · exact g3 f hf2

/-- The loop preserves well-formedness. -/
theorem ccLoop_good (cfg : CrazyCast) (ti : TaskInstance) (client : CompletionClient)
    (n_samples : ℕ) :
    ∀ (fuel bs k : ℕ) (st : LoopState),
    goodState n_samples ti.future_timestamps.length st →
    goodState n_samples ti.future_timestamps.length
      (ccLoop cfg ti client n_samples fuel bs k st) := by
  intro fuel
  induction fuel with
  | zero => intro bs k st hg; exact hg
  | succ f ih =>
    intro bs k st hg
    by_cases hc : st.valid.length < n_samples
    · have hunf : ccLoop cfg ti client n_samples (f + 1) bs k st
          = if st.valid.length < n_samples then
              ccLoop cfg ti client n_samples f
                (nextBatchSize cfg ti n_samples (ccRoundState ti client k bs st).valid.length)
                (k + 1) (ccTruncState n_samples (ccRoundState ti client k bs st))
            else st := rfl
      rw [hunf, if_pos hc]
      exact ih _ _ _ (ccRound_trunc_good ti client n_samples k bs st hg hc)
    · rw [ccLoop_of_done cfg ti client n_samples _ bs k st hc]
      exact hg

/-- The final loop state of every acquisition call is well-formed. -/
theorem ccRun_good (cfg : CrazyCast) (ti : TaskInstance) (client : CompletionClient)
    (n_samples bs0 r0 : ℕ) :
    goodState n_samples ti.future_timestamps.length
      (ccRun cfg ti client n_samples bs0 r0) :=
  ccLoop_good cfg ti client n_samples r0 bs0 0 initState
    ⟨by simp [initState], by intro f hf; cases hf⟩

/-- The engine configuration for the C1 instances: invalid samples are
tolerated (`fail_on_invalid = False`). -/
def cfgC1 : CrazyCast :=
  { cfgW with fail_on_invalid := false }

/-- Counterexample for C1 as stated: with `fail_on_invalid = False` and zero
valid forecasts, the call does not return an empty sample array — the numpy
stacking `np.array([])[:, :, None]` raises `IndexError` (a 1-dimensional
empty array cannot be indexed with two slices), so the call fails. -/
theorem c1_counterexample :
    cfgC1.fail_on_invalid = false
    ∧ (ccCall cfgC1 tiW junkClient 2 0).fst = .error .stackIndexError :=
  ⟨rfl, by with_unfolding_all rfl⟩

/-- C1 (amended): an acquisition call that passes the precondition checks
never returns more than `n_samples` rows; the returned rows are exactly the
first `n_samples` accepted forecasts (in acceptance order), each of horizon
length with a trailing axis of size 1; with `fail_on_invalid` true, a
successful call returns exactly `n_samples` rows, and a shortfall raises the
insufficient-samples error carrying the requested and achieved counts; with
`fail_on_invalid` false a shortfall is returned as-is — except that zero
valid forecasts make the numpy stacking fail instead of returning an empty
array. -/
theorem c1_amended_sample_delivery (cfg : CrazyCast) (ti : TaskInstance)
    (client : CompletionClient) (n_samples : ℕ) (tc : ℚ) (bs0 r0 : ℕ)
    (h1 : ¬ (pyTruthy cfg.batch_size = true
        ∧ cfg.batch_size.getD 0 * cfg.n_retries < n_samples))
    (h2 : ¬ effectiveDefaultBatchSize cfg n_samples < cfg.batch_size_on_retry)
    (hi : ccInit cfg ti n_samples = .ok (bs0, r0)) :
    (∀ r : CCResult, (ccCall cfg ti client n_samples tc).fst = .ok r →
      r.samples = ((ccRun cfg ti client n_samples bs0 r0).accepted.take n_samples).map
          (fun row => row.map (fun q => [q]))
      ∧ r.samples.length ≤ n_samples
      ∧ (cfg.fail_on_invalid = true → r.samples.length = n_samples)
      ∧ 0 < r.samples.length
      ∧ (∀ row ∈ r.samples, row.length = ti.future_timestamps.length
          ∧ ∀ cell ∈ row, cell.length = 1))
    ∧ (∀ a b : ℕ,
        (ccCall cfg ti client n_samples tc).fst = .error (.insufficientSamples a b) →
        cfg.fail_on_invalid = true ∧ a = n_samples ∧ b < n_samples)
    ∧ (cfg.fail_on_invalid = false → (ccRun cfg ti client n_samples bs0 r0).valid = [] →
        (ccCall cfg ti client n_samples tc).fst = .error .stackIndexError) := by
  have hcc : ccCall cfg ti client n_samples tc
      = ccFinish cfg n_samples tc (ccRun cfg ti client n_samples bs0 r0) := by
    unfold ccCall
    rw [if_neg h1, if_neg h2, hi]
  obtain ⟨hvt, hlenH⟩ := ccRun_good cfg ti client n_samples bs0 r0
  have hvle : (ccRun cfg ti client n_samples bs0 r0).valid.length ≤ n_samples := by
    rw [hvt, List.length_take]
    omega
  refine ⟨?_, ?_, ?_⟩
  · intro r hok
    rw [hcc] at hok
    unfold ccFinish at hok
    by_cases hf : cfg.fail_on_invalid = true
        ∧ (ccRun cfg ti client n_samples bs0 r0).valid.length < n_samples
    · rw [if_pos hf] at hok
      simp at hok
    · rw [if_neg hf] at hok
      cases hv : (ccRun cfg ti client n_samples bs0 r0).valid with
      | nil => rw [hv] at hok; simp at hok
      | cons f fs =>
        rw [hv] at hok
        simp only [Except.ok.injEq] at hok
        subst hok
        have hsam : ((f :: fs).map (fun row => row.map (fun q => ([q] : List ℚ))))
            = ((ccRun cfg ti client n_samples bs0 r0).accepted.take n_samples).map
                (fun row => row.map (fun q => [q])) := by
          rw [← hv, hvt]
        have hlv : (f :: fs).length ≤ n_samples := hv ▸ hvle
        refine ⟨hsam, ?_, ?_, ?_, ?_⟩
        · simpa using hlv
        · intro hfoi
          have hnl : ¬ (ccRun cfg ti client n_samples bs0 r0).valid.length < n_samples :=
            fun hlt => hf ⟨hfoi, hlt⟩
          rw [hv] at hnl
          simp only [List.length_map, List.length_cons] at hnl ⊢
          simp only [List.length_cons] at hlv
          omega
        · simp
        · intro row hrow
          obtain ⟨g, hg, rfl⟩ := List.mem_map.mp hrow
          have hgacc : g ∈ (ccRun cfg ti client n_samples bs0 r0).accepted := by
            have : g ∈ (ccRun cfg ti client n_samples bs0 r0).valid := hv ▸ hg
            rw [hvt] at this
            exact List.take_subset n_samples _ this
          refine ⟨by simpa using hlenH g hgacc, ?_⟩
          intro cell hcell
          obtain ⟨q, _, rfl⟩ := List.mem_map.mp hcell
          rfl
  · intro a b herr
    rw [hcc] at herr
    unfold ccFinish at herr
    by_cases hf : cfg.fail_on_invalid = true
        ∧ (ccRun cfg ti client n_samples bs0 r0).valid.length < n_samples
    · rw [if_pos hf] at herr
      simp only [Except.error.injEq, CCError.insufficientSamples.injEq] at herr
      exact ⟨hf.1, herr.1.symm, herr.2 ▸ hf.2⟩
    · rw [if_neg hf] at herr
      cases hv : (ccRun cfg ti client n_samples bs0 r0).valid with
      | nil => rw [hv] at herr; simp at herr
      | cons f fs => rw [hv] at herr; simp at herr
  · intro hfoi hempty
    rw [hcc]
    unfold ccFinish
    have hf : ¬ (cfg.fail_on_invalid = true
        ∧ (ccRun cfg ti client n_samples bs0 r0).valid.length < n_samples) := by
      rw [hfoi]
      simp
    rw [if_neg hf, hempty]

/-- A backend that yields one valid forecast on the first round and junk on
every retry. -/
def halfClient : CompletionClient := fun k _ =>
  if k = 0 then
    { choices := ["<forecast>(2020-01-01 00:00:00, 7)</forecast>".data],
      prompt_tokens := 1, completion_tokens := 1 }
  else
    { choices := ["junk".data], prompt_tokens := 1, completion_tokens := 1 }

/-- The concrete short result of `ccCall cfgC1 tiW halfClient 2 0`: one valid
forecast out of the two requested, returned as a `[1, 1, 1]` array because
`fail_on_invalid` is off. -/
def resultC1 : CCResult :=
  { samples := [[[7]]],
    total_input_tokens := 3,
    total_output_tokens := 3,
    llm_outputs := ["<forecast>(2020-01-01 00:00:00, 7)</forecast>".data,
      "junk".data, "junk".data],
    total_token_cost := none }

/-- Witness for the amended C1: the concrete short-delivery call returns one
row (`≤ n_samples = 2`, nonzero), equal to the prefix of the acceptance
trace, with shape `[1, H, 1]`. -/
theorem c1_amended_sample_delivery_witness :
    resultC1.samples
      = ((ccRun cfgC1 tiW halfClient 2 2 3).accepted.take 2).map
          (fun row => row.map (fun q => [q]))
    ∧ resultC1.samples.length ≤ 2
    ∧ (cfgC1.fail_on_invalid = true → resultC1.samples.length = 2)
    ∧ 0 < resultC1.samples.length
    ∧ (∀ row ∈ resultC1.samples, row.length = tiW.future_timestamps.length
        ∧ ∀ cell ∈ row, cell.length = 1) :=
  (c1_amended_sample_delivery cfgC1 tiW halfClient 2 0 2 3 (by decide) (by decide)
    (by with_unfolding_all rfl)).1 resultC1 (by with_unfolding_all rfl)

/-- The concrete result of `ccCall cfgW tiW okClient 1 0` (no token cost
configured): one row, 100 input and 50 output tokens from the single round. -/
def resultC6 : CCResult :=
  { samples := [[[7]]],
    total_input_tokens := 100,
    total_output_tokens := 50,
    llm_outputs := ["<forecast>(2020-01-01 00:00:00, 7)</forecast>".data],
    total_token_cost := none }

/-- Witness for C6: the concrete one-round call reports exactly the loop's
accumulated token counters. -/
theorem c6_token_accounting_witness :
    resultC6.total_input_tokens = (ccRun cfgW tiW okClient 1 1 3).tokens_input
    ∧ resultC6.total_output_tokens = (ccRun cfgW tiW okClient 1 1 3).tokens_output :=
  (c6_token_accounting cfgW tiW okClient 1 1 3 0).2.2 resultC6
    (by with_unfolding_all rfl) (by with_unfolding_all rfl)

/-- The engine configuration of the capped C2 scenario: `batch_size = 8`,
`n_retries = 2`, `batch_size_on_retry = 2`. -/
def cfgC2 : CrazyCast :=
  { cfgW with batch_size := some 8, n_retries := 2, batch_size_on_retry := 2 }

/-- A task instance advertising a `max_batch_size` cap of 3. -/
def tiC2 : TaskInstance :=
  { tiW with max_crazycast_batch_size := some 3 }

/-- A backend that yields only one valid forecast on the first round and a
full batch of valid forecasts on every retry. -/
def capClient : CompletionClient := fun k n =>
  { choices :=
      if k = 0 then ["<forecast>(2020-01-01 00:00:00, 7)</forecast>".data]
      else List.replicate n "<forecast>(2020-01-01 00:00:00, 7)</forecast>".data,
    prompt_tokens := 1, completion_tokens := 1 }

/-- Witness for C2 at the capped scenario (`n_samples = 8`, cap 3): the
initial batch is `min(8, 3) = 3` with retry budget `2 + 8 // 3 = 4`, and the
first issued request indeed uses batch size 3. -/
theorem c2_batch_size_policy_witness :
    ((3 : ℕ) = min (effectiveDefaultBatchSize cfgC2 8) 3
      ∧ (4 : ℕ) = cfgC2.n_retries + effectiveDefaultBatchSize cfgC2 8
          / min (effectiveDefaultBatchSize cfgC2 8) 3)
    ∧ (ccRun cfgC2 tiC2 capClient 8 3 4).requests.getD 0 0 = 3 := by
  have h := c2_batch_size_policy cfgC2 tiC2 capClient 8 3 4 (by with_unfolding_all rfl)
  exact ⟨h.1 3 rfl, h.2.2.1 (by with_unfolding_all decide)⟩

/-! ### C5: parser failure characterization -/

/-- An `optMapM` fails exactly when some element fails. -/
theorem optMapM_eq_none_iff (f : α → Option β) :
    ∀ l : List α, optMapM f l = none ↔ ∃ a ∈ l, f a = none := by
  intro l
  induction l with
  | nil => simp [optMapM]
  | cons a l ih =>
    unfold optMapM
    cases hf : f a with
    | none => simp [hf]
    | some b =>
      cases hm : optMapM f l with
      | none =>
        simp only [List.mem_cons]
        constructor
        · intro _
          obtain ⟨x, hx, hfx⟩ := ih.mp hm
          exact ⟨x, Or.inr hx, hfx⟩
        · intro _
          trivial
      | some bs =>
        simp only [List.mem_cons]
        constructor
        · intro h
          simp at h
        · rintro ⟨x, hx | hx, hfx⟩
          · subst hx
            rw [hf] at hfx
            simp at hfx
          · exact absurd (ih.mpr ⟨x, hx, hfx⟩) (by rw [hm]; simp)

/-- `lookupLast` misses exactly the keys that are absent from the
association list. -/
theorem lookupLast_eq_none_iff (k : List Char) :
    ∀ l : List (List Char × ℚ), lookupLast k l = none ↔ k ∉ l.map Prod.fst := by
  intro l
  induction l with
  | nil => simp [lookupLast]
  | cons p l ih =>
    obtain ⟨k2, v⟩ := p
    unfold lookupLast
    cases h : lookupLast k l with
    | some v2 =>
      simp only [List.map_cons, List.mem_cons]
      constructor
      · intro hfalse; simp at hfalse
      · intro hnot
        have : k ∈ l.map Prod.fst := by
          by_contra hmem
          rw [ih.mpr hmem] at h
          simp at h
        exact absurd (Or.inr this) hnot
    | none =>
      by_cases hk : k2 = k
      · rw [if_pos hk]
        simp [hk]
      · rw [if_neg hk]
        simp only [List.map_cons, List.mem_cons]
        constructor
        · intro _
          intro hor
          rcases hor with hor | hor
          · exact hk hor.symm
          · exact (ih.mp h) hor
        · intro _
          trivial

/-- A forecast line is rejected exactly when it has fewer than two
comma-separated fields or its second field does not parse as a float. -/
theorem parseLine_eq_none_iff (x : List Char) :
    parseLine x = none ↔
      (splitOnChar ',' x).length < 2
      ∨ pyFloat ((splitOnChar ',' x).getD 1 []) = none := by
  unfold parseLine
  cases hs : splitOnChar ',' x with
  | nil => simp
  | cons t rest =>
    cases rest with
    | nil => simp
    | cons v rest2 =>
      simp only [List.length_cons, List.getD_cons_succ, List.getD_cons_zero]
      cases hv : pyFloat v with
      | none => simp
      | some q => simp

/-- The key of an accepted forecast line is its quote-stripped first
comma-separated field. -/
theorem parseLine_some_key (x : List Char) (p : List Char × ℚ)
    (h : parseLine x = some p) :
    p.1 = removeQuotes ((splitOnChar ',' x).getD 0 []) := by
  unfold parseLine at h
  cases hs : splitOnChar ',' x with
  | nil => rw [hs] at h; simp at h
  | cons t rest =>
    cases rest with
    | nil => rw [hs] at h; simp at h
    | cons v rest2 =>
      rw [hs] at h
      have h2 : Option.map (fun q => (removeQuotes t, q)) (pyFloat v) = some p := h
      cases hv : pyFloat v with
      | none => rw [hv] at h2; simp at h2
      | some q =>
        rw [hv] at h2
        simp only [Option.map_some', Option.some.injEq] at h2
        subst h2
        rfl

/-- The keys of the parsed mapping are the quote-stripped first fields of
the block's lines, in order. -/
theorem optMapM_parseLine_keys :
    ∀ (lines : List (List Char)) (pairs : List (List Char × ℚ)),
    optMapM parseLine lines = some pairs →
    pairs.map Prod.fst
      = lines.map (fun x => removeQuotes ((splitOnChar ',' x).getD 0 [])) := by
  intro lines
  induction lines with
  | nil =>
    intro pairs h
    simp only [optMapM, Option.some.injEq] at h
    subst h
    rfl
  | cons x lines ih =>
    intro pairs h
    unfold optMapM at h
    cases hf : parseLine x with
    | none => rw [hf] at h; simp at h
    | some p =>
      rw [hf] at h
      cases hm : optMapM parseLine lines with
      | none => rw [hm] at h; simp at h
      | some ps =>
        rw [hm] at h
        simp only [Option.some.injEq] at h
        subst h
        simp only [List.map_cons]
        rw [ih ps hm, parseLine_some_key x p hf]

/-- Counterexample for C5 as stated: a line with three comma-separated
fields does not "split into exactly a timestamp and a numeric value", yet
the candidate is accepted (the dict comprehension only reads fields 0 and 1
and ignores the rest), so parsing does not fail on it. -/
theorem c5_counterexample :
    (splitOnChar ',' "t1, 1.5, 99".data).length = 3
    ∧ parseForecast ["t1".data] "<forecast>t1, 1.5, 99</forecast>".data
      = some [3 / 2] :=
  ⟨by decide, by with_unfolding_all decide⟩

/-- Failure characterization of the post-extraction parsing pipeline: the
mapping/lookup stage fails exactly when some line is bad (fewer than two
comma fields, or a non-float second field) or some requested timestamp is
absent from the parsed keys. -/
theorem parseForecastLines_eq_none_iff (targets : List (List Char))
    (block : List Char) :
    (match optMapM parseLine (splitOnChar '\n' (stripParens block)) with
      | none => none
      | some pairs => optMapM (fun t => lookupLast t pairs) targets) = none
    ↔ ((∃ x ∈ splitOnChar '\n' (stripParens block),
          (splitOnChar ',' x).length < 2
          ∨ pyFloat ((splitOnChar ',' x).getD 1 []) = none)
      ∨ ∃ t ∈ targets,
          t ∉ (splitOnChar '\n' (stripParens block)).map
            (fun x => removeQuotes ((splitOnChar ',' x).getD 0 []))) := by
  cases hm : optMapM parseLine (splitOnChar '\n' (stripParens block)) with
  | none =>
    have hbad : ∃ x ∈ splitOnChar '\n' (stripParens block),
        (splitOnChar ',' x).length < 2
        ∨ pyFloat ((splitOnChar ',' x).getD 1 []) = none := by
      obtain ⟨x, hx, hfx⟩ := (optMapM_eq_none_iff parseLine _).mp hm
      exact ⟨x, hx, (parseLine_eq_none_iff x).mp hfx⟩
    exact iff_of_true rfl (Or.inl hbad)
  | some pairs =>
    have hkeys := optMapM_parseLine_keys _ pairs hm
    have hiff : optMapM (fun t => lookupLast t pairs) targets = none
        ↔ ((∃ x ∈ splitOnChar '\n' (stripParens block),
              (splitOnChar ',' x).length < 2
              ∨ pyFloat ((splitOnChar ',' x).getD 1 []) = none)
          ∨ ∃ t ∈ targets,
              t ∉ (splitOnChar '\n' (stripParens block)).map
                (fun x => removeQuotes ((splitOnChar ',' x).getD 0 []))) := by
      constructor
      · intro hnone
        obtain ⟨t, ht, hlt⟩ := (optMapM_eq_none_iff _ targets).mp hnone
        refine Or.inr ⟨t, ht, ?_⟩
        rw [← hkeys]
        exact (lookupLast_eq_none_iff t pairs).mp hlt
      · rintro (⟨x, hx, hbad⟩ | ⟨t, ht, hmiss⟩)
        · have hcontra : optMapM parseLine (splitOnChar '\n' (stripParens block))
              = none :=
            (optMapM_eq_none_iff parseLine _).mpr
              ⟨x, hx, (parseLine_eq_none_iff x).mpr hbad⟩
          rw [hm] at hcontra
          simp at hcontra
        · refine (optMapM_eq_none_iff _ targets).mpr ⟨t, ht, ?_⟩
          refine (lookupLast_eq_none_iff t pairs).mpr ?_
          rw [hkeys]
          exact hmiss
    exact hiff

/-- C5 (amended): one candidate is rejected exactly when the raw text has no
delimited forecast block, or some line of the (paren-stripped) block has
fewer than two comma-separated fields, or the second field of some line does
not parse as a float, or some requested target timestamp is absent from the
keys of the parsed mapping (the quote-stripped first fields).  Fields beyond
the second are ignored, and outputs containing extra, non-requested
timestamps parse successfully (the right-hand side does not require the keys
to be contained in the targets). -/
theorem c5_amended_rejection (targets : List (List Char)) (raw : List Char) :
    parseForecast targets raw = none ↔
      extract_html_tags_forecast raw = none
      ∨ ∃ block, extract_html_tags_forecast raw = some block
          ∧ ((∃ x ∈ splitOnChar '\n' (stripParens block),
                (splitOnChar ',' x).length < 2
                ∨ pyFloat ((splitOnChar ',' x).getD 1 []) = none)
            ∨ ∃ t ∈ targets,
                t ∉ (splitOnChar '\n' (stripParens block)).map
                  (fun x => removeQuotes ((splitOnChar ',' x).getD 0 []))) := by
  unfold parseForecast
  cases he : extract_html_tags_forecast raw with
  | none => simp
  | some block =>
    constructor
    · intro h
      exact Or.inr ⟨block, rfl, (parseForecastLines_eq_none_iff targets block).mp h⟩
    · rintro (hfalse | ⟨block2, hb2, hin⟩)
      · cases hfalse
      · have hbeq : block2 = block := by
          injection hb2 with hb3
          exact hb3.symm
        subst hbeq
        exact (parseForecastLines_eq_none_iff targets block2).mpr hin

/-! ### C4: well-formed outputs parse to target-aligned sequences -/

/-- `splitOnChar` never returns the empty list. -/
theorem splitOnChar_ne_nil (sep : Char) : ∀ l : List Char, splitOnChar sep l ≠ [] := by
  intro l
  cases l with
  | nil => simp [splitOnChar]
  | cons c rest =>
    unfold splitOnChar
    by_cases hc : c = sep
    · rw [if_pos hc]; simp
    · rw [if_neg hc]
      cases splitOnChar sep rest with
      | nil => simp
      | cons h t => simp

/-- Splitting a separator-free list yields that list as the only fragment. -/
theorem splitOnChar_of_not_mem (sep : Char) :
    ∀ l : List Char, (∀ c ∈ l, c ≠ sep) → splitOnChar sep l = [l] := by
  intro l
  induction l with
  | nil => intro _; rfl
  | cons c rest ih =>
    intro hfree
    unfold splitOnChar
    have hc : ¬ c = sep := hfree c (List.mem_cons_self c rest)
    rw [if_neg hc]
    rw [ih (fun d hd => hfree d (List.mem_cons_of_mem c hd))]

/-- Splitting `x ++ sep :: t` with `x` separator-free yields `x` followed by
the fragments of `t`. -/
theorem splitOnChar_append_cons (sep : Char) :
    ∀ (x t : List Char), (∀ c ∈ x, c ≠ sep) →
    splitOnChar sep (x ++ sep :: t) = x :: splitOnChar sep t := by
  intro x
  induction x with
  | nil =>
    intro t _
    show splitOnChar sep (sep :: t) = [] :: splitOnChar sep t
    rw [splitOnChar]
    simp
  | cons c x2 ih =>
    intro t hfree
    have hc : ¬ c = sep := hfree c (List.mem_cons_self c x2)
    show splitOnChar sep (c :: (x2 ++ sep :: t)) = (c :: x2) :: splitOnChar sep t
    rw [splitOnChar]
    simp only [if_neg hc]
    rw [ih t (fun d hd => hfree d (List.mem_cons_of_mem c hd))]

/-- Python's `"\n".join`-style separator interleaving (the shape of the
history/forecast blocks built and parsed by the engine). -/
def joinSep (sep : Char) : List (List Char) → List Char
  | [] => []
  | [x] => x
  | x :: y :: rest => x ++ sep :: joinSep sep (y :: rest)

/-- Splitting inverts joining when every fragment is separator-free. -/
theorem splitOnChar_joinSep (sep : Char) :
    ∀ xs : List (List Char), xs ≠ [] → (∀ x ∈ xs, ∀ c ∈ x, c ≠ sep) →
    splitOnChar sep (joinSep sep xs) = xs := by
  intro xs
  induction xs with
  | nil => intro h _; exact absurd rfl h
  | cons x ys ih =>
    intro _ hfree
    cases ys with
    | nil =>
      show splitOnChar sep x = [x]
      exact splitOnChar_of_not_mem sep x (hfree x (List.mem_cons_self x []))
    | cons y rest =>
      show splitOnChar sep (x ++ sep :: joinSep sep (y :: rest)) = x :: y :: rest
      rw [splitOnChar_append_cons sep x _ (hfree x (List.mem_cons_self x _))]
      rw [ih (by simp) (fun z hz => hfree z (List.mem_cons_of_mem x hz))]

/-- Characters of a join are the separator or characters of a fragment. -/
theorem mem_joinSep (sep : Char) :
    ∀ (xs : List (List Char)) (c : Char), c ∈ joinSep sep xs →
    c = sep ∨ ∃ x ∈ xs, c ∈ x := by
  intro xs
  induction xs with
  | nil => intro c hc; cases hc
  | cons x ys ih =>
    intro c hc
    cases ys with
    | nil => exact Or.inr ⟨x, List.mem_cons_self x [], hc⟩
    | cons y rest =>
      have hc2 : c ∈ x ++ sep :: joinSep sep (y :: rest) := hc
      rcases List.mem_append.mp hc2 with hx | hsep
      · exact Or.inr ⟨x, List.mem_cons_self x _, hx⟩
      · rcases List.mem_cons.mp hsep with rfl | hjoin
        · exact Or.inl rfl
        · rcases ih c hjoin with h | ⟨z, hz, hcz⟩
          · exact Or.inl h
          · exact Or.inr ⟨z, List.mem_cons_of_mem x hz, hcz⟩

/-- Filtering with a predicate that keeps the separator commutes with the
join. -/
theorem filter_joinSep (sep : Char) (p : Char → Bool) (hp : p sep = true) :
    ∀ xs : List (List Char),
    (joinSep sep xs).filter p = joinSep sep (xs.map (List.filter p)) := by
  intro xs
  induction xs with
  | nil => rfl
  | cons x ys ih =>
    cases ys with
    | nil => rfl
    | cons y rest =>
      show (x ++ sep :: joinSep sep (y :: rest)).filter p
        = x.filter p ++ sep :: joinSep sep ((y :: rest).map (List.filter p))
      rw [List.filter_append, List.filter_cons, if_pos hp, ih]

/-- `findSplit` at an immediate pattern occurrence. -/
theorem findSplit_immediate (pat rest : List Char) :
    findSplit pat (pat ++ rest) = some ([], rest) := by
  cases hl : pat ++ rest with
  | nil =>
    rcases List.append_eq_nil.mp hl with ⟨h1, h2⟩
    subst h1; subst h2
    rfl
  | cons c t =>
    unfold findSplit
    rw [← hl]
    have hpre : pat.isPrefixOf (pat ++ rest) = true := by
      rw [List.isPrefixOf_iff_prefix]
      exact ⟨rest, rfl⟩
    rw [hl] at hpre ⊢
    rw [if_pos hpre, ← hl, List.drop_left]

/-- `findSplit` walks over text that never starts the pattern: if the first
pattern character does not occur in `x`, the first occurrence of the pattern
in `x ++ pat ++ rest` is right after `x`. -/
theorem findSplit_mid (phead : Char) (ptail : List Char) :
    ∀ (x rest : List Char), (∀ c ∈ x, c ≠ phead) →
    findSplit (phead :: ptail) (x ++ (phead :: ptail) ++ rest)
      = some (x, rest) := by
  intro x
  induction x with
  | nil =>
    intro rest _
    show findSplit (phead :: ptail) ((phead :: ptail) ++ rest) = some ([], rest)
    exact findSplit_immediate (phead :: ptail) rest
  | cons c x2 ih =>
    intro rest hfree
    have hc : ¬ c = phead := hfree c (List.mem_cons_self c x2)
    show findSplit (phead :: ptail) (c :: (x2 ++ (phead :: ptail) ++ rest))
      = some (c :: x2, rest)
    unfold findSplit
    have hnp : (phead :: ptail).isPrefixOf (c :: (x2 ++ (phead :: ptail) ++ rest))
        = false := by
      rw [Bool.eq_false_iff]
      intro hpre
      rw [List.isPrefixOf_iff_prefix] at hpre
      obtain ⟨t2, ht2⟩ := hpre
      have : phead = c := by
        have := congrArg (fun l => l.head?) ht2
        simpa using this
      exact hc this.symm
    rw [hnp]
    simp only [Bool.false_eq_true, if_false]
    rw [ih rest (fun d hd => hfree d (List.mem_cons_of_mem c hd))]
    rfl

/-- Extraction of a rendered forecast block: the text between the tags is
returned verbatim provided it contains no `<`. -/
theorem extract_rendered (body : List Char) (hfree : ∀ c ∈ body, c ≠ '<') :
    extract_html_tags_forecast
      ("<forecast>".data ++ (body ++ "</forecast>".data)) = some body := by
  unfold extract_html_tags_forecast
  rw [findSplit_immediate "<forecast>".data (body ++ "</forecast>".data)]
  have h2 : findSplit "</forecast>".data (body ++ "</forecast>".data)
      = some (body, []) := by
    have hmid := findSplit_mid '<' "/forecast>".data body [] hfree
    rw [List.append_nil] at hmid
    exact hmid
  have h3 : (match some (([] : List Char), body ++ "</forecast>".data) with
      | none => none
      | some p =>
        match findSplit "</forecast>".data p.2 with
        | none => none
        | some q => some q.1)
      = (match findSplit "</forecast>".data (body ++ "</forecast>".data) with
        | none => none
        | some q => some q.1) := rfl
  rw [h3, h2]

/-- Stripping whitespace ignores a leading space (Python `float(" 1.5")`). -/
theorem pyFloat_cons_space (v : List Char) : pyFloat (' ' :: v) = pyFloat v := by
  unfold pyFloat trimWs
  rw [List.dropWhile_cons]
  simp [pyIsSpace]

/-- Removing quotes from a quote-free field is the identity. -/
theorem removeQuotes_eq_self (l : List Char)
    (h : ∀ c ∈ l, c ≠ '\x27' ∧ c ≠ '\x22') : removeQuotes l = l := by
  unfold removeQuotes
  rw [List.filter_eq_self.mpr, List.filter_eq_self.mpr]
  · intro a ha
    exact decide_eq_true (h a ha).1
  · intro a ha
    rw [List.filter_eq_self.mpr (fun b hb => decide_eq_true (h b hb).1)] at ha
    exact decide_eq_true (h a ha).2

/-- Removing parentheses from a parenthesis-free text is the identity. -/
theorem stripParens_eq_self (l : List Char)
    (h : ∀ c ∈ l, c ≠ '(' ∧ c ≠ ')') : stripParens l = l := by
  unfold stripParens
  rw [List.filter_eq_self.mpr, List.filter_eq_self.mpr]
  · intro a ha
    exact decide_eq_true (h a ha).1
  · intro a ha
    rw [List.filter_eq_self.mpr (fun b hb => decide_eq_true (h b hb).1)] at ha
    exact decide_eq_true (h a ha).2

/-- `stripParens` distributes over concatenation. -/
theorem stripParens_append (a b : List Char) :
    stripParens (a ++ b) = stripParens a ++ stripParens b := by
  unfold stripParens
  rw [List.filter_append, List.filter_append]

/-- One rendered `(timestamp, value)` pair. -/
def renderPair (p : List Char × List Char) : List Char :=
  ['('] ++ p.1 ++ [',', ' '] ++ p.2 ++ [')']

/-- A rendered forecast block in the format requested by the prompt:
newline-separated `(timestamp, value)` pairs between `<forecast>` tags. -/
def renderForecastBlock (ps : List (List Char × List Char)) : List Char :=
  "<forecast>".data ++ (joinSep '\n' (ps.map renderPair) ++ "</forecast>".data)

/-- Paren-stripping a rendered pair with paren-free fields leaves
`timestamp ++ ", " ++ value`. -/
theorem stripParens_renderPair (p : List Char × List Char)
    (h1 : ∀ c ∈ p.1, c ≠ '(' ∧ c ≠ ')') (h2 : ∀ c ∈ p.2, c ≠ '(' ∧ c ≠ ')') :
    stripParens (renderPair p) = p.1 ++ ',' :: ' ' :: p.2 := by
  unfold renderPair
  rw [stripParens_append, stripParens_append, stripParens_append, stripParens_append]
  rw [stripParens_eq_self p.1 h1, stripParens_eq_self p.2 h2]
  have hL : stripParens ['('] = [] := by decide
  have hM : stripParens [',', ' '] = [',', ' '] := by decide
  have hR : stripParens [')'] = [] := by decide
  rw [hL, hM, hR]
  simp

/-- A rendered line parses to its key and float value. -/
theorem parseLine_rendered (p : List Char × List Char) (q : ℚ)
    (hts : ∀ c ∈ p.1, c ≠ ',' ∧ c ≠ '\x27' ∧ c ≠ '\x22')
    (hvs : ∀ c ∈ p.2, c ≠ ',')
    (hq : pyFloat p.2 = some q) :
    parseLine (p.1 ++ ',' :: ' ' :: p.2) = some (p.1, q) := by
  unfold parseLine
  have hsplit : splitOnChar ',' (p.1 ++ ',' :: ' ' :: p.2)
      = p.1 :: splitOnChar ',' (' ' :: p.2) := by
    exact splitOnChar_append_cons ',' p.1 (' ' :: p.2) (fun c hc => (hts c hc).1)
  have hval : splitOnChar ',' (' ' :: p.2) = [' ' :: p.2] := by
    apply splitOnChar_of_not_mem
    intro c hc
    rcases List.mem_cons.mp hc with rfl | hc
    · decide
    · exact hvs c hc
  rw [hsplit, hval]
  have h5 : (match [p.1, ' ' :: p.2] with
      | t :: v :: _ => Option.map (fun q => (removeQuotes t, q)) (pyFloat v)
      | _ => none)
      = Option.map (fun q => (removeQuotes p.1, q)) (pyFloat (' ' :: p.2)) := rfl
  rw [h5, pyFloat_cons_space, hq]
  rw [removeQuotes_eq_self p.1 (fun c hc => ⟨(hts c hc).2.1, (hts c hc).2.2⟩)]
  rfl

/-- With nodup keys, `lookupLast` finds the unique binding of a present key. -/
theorem lookupLast_nodup :
    ∀ (l : List (List Char × ℚ)) (k : List Char) (v : ℚ),
    (l.map Prod.fst).Nodup → (k, v) ∈ l → lookupLast k l = some v := by
  intro l
  induction l with
  | nil => intro k v _ hmem; cases hmem
  | cons p rest ih =>
    intro k v hnd hmem
    obtain ⟨k2, v2⟩ := p
    have hnd2 := (List.nodup_cons.mp hnd).2
    have hk2 := (List.nodup_cons.mp hnd).1
    rcases List.mem_cons.mp hmem with heq | hmem2
    · injection heq with he1 he2
      subst he1
      subst he2
      show (match lookupLast k rest with
        | some v2 => some v2
        | none => if k = k then some v else none) = some v
      have hnone : lookupLast k rest = none := by
        rw [lookupLast_eq_none_iff]
        simpa using hk2
      rw [hnone, if_pos rfl]
    · have hrest := ih k v hnd2 hmem2
      show (match lookupLast k rest with
        | some v2 => some v2
        | none => if k2 = k then some v2 else none) = some v
      rw [hrest]

/-- If every element maps to a `some` through `f ∘ g`, the traversal of the
mapped list succeeds with the pointwise images. -/
theorem optMapM_comp (f : α → Option β) (g : γ → α) (h : γ → β) :
    ∀ l : List γ, (∀ a ∈ l, f (g a) = some (h a)) →
    optMapM f (l.map g) = some (l.map h) := by
  intro l
  induction l with
  | nil => intro _; rfl
  | cons a l ih =>
    intro hall
    show optMapM f (g a :: l.map g) = some (h a :: l.map h)
    unfold optMapM
    rw [hall a (List.mem_cons_self a l), ih (fun b hb => hall b (List.mem_cons_of_mem a hb))]

/-- If every element maps to a `some`, the traversal succeeds with the
pointwise images. -/
theorem optMapM_all_some (f : α → Option β) (h : α → β) :
    ∀ l : List α, (∀ a ∈ l, f a = some (h a)) →
    optMapM f l = some (l.map h) := by
  intro l hall
  have := optMapM_comp f id h l hall
  rw [List.map_id] at this
  exact this

/-- The characters of a rendered pair. -/
theorem mem_renderPair (p : List Char × List Char) (c : Char)
    (hc : c ∈ renderPair p) :
    c = '(' ∨ c ∈ p.1 ∨ c = ',' ∨ c = ' ' ∨ c ∈ p.2 ∨ c = ')' := by
  unfold renderPair at hc
  rcases List.mem_append.mp hc with h1 | h1
  · rcases List.mem_append.mp h1 with h2 | h2
    · rcases List.mem_append.mp h2 with h3 | h3
      · rcases List.mem_append.mp h3 with h4 | h4
        · left
          simpa using h4
        · exact Or.inr (Or.inl h4)
      · rcases List.mem_cons.mp h3 with rfl | h4
        · exact Or.inr (Or.inr (Or.inl rfl))
        · rcases List.mem_cons.mp h4 with rfl | h5
          · exact Or.inr (Or.inr (Or.inr (Or.inl rfl)))
          · cases h5
    · exact Or.inr (Or.inr (Or.inr (Or.inr (Or.inl h2))))
  · rcases List.mem_cons.mp h1 with rfl | h5
    · exact Or.inr (Or.inr (Or.inr (Or.inr (Or.inr rfl))))
    · cases h5

/-- Core C4 lemma: a rendered forecast block whose pairs have well-formed
fields and cover exactly the requested targets parses to the values aligned
with the targets, in target order. -/
theorem parseForecast_rendered (targets : List (List Char))
    (ps : List (List Char × List Char)) (qmap : List Char → ℚ)
    (hnd : targets.Nodup)
    (hne : ps ≠ [])
    (hkeys : (ps.map Prod.fst).Perm targets)
    (hts : ∀ p ∈ ps, ∀ c ∈ p.1, c ≠ '(' ∧ c ≠ ')' ∧ c ≠ ',' ∧ c ≠ '\n'
        ∧ c ≠ '\x27' ∧ c ≠ '\x22' ∧ c ≠ '<')
    (hvs : ∀ p ∈ ps, ∀ c ∈ p.2, c ≠ '(' ∧ c ≠ ')' ∧ c ≠ ',' ∧ c ≠ '\n' ∧ c ≠ '<')
    (hq : ∀ p ∈ ps, pyFloat p.2 = some (qmap p.1)) :
    parseForecast targets (renderForecastBlock ps) = some (targets.map qmap) := by
  have hbody : ∀ c ∈ joinSep '\n' (ps.map renderPair), c ≠ '<' := by
    intro c hc
    rcases mem_joinSep '\n' _ c hc with rfl | ⟨x, hx, hcx⟩
    · decide
    · obtain ⟨p, hp, rfl⟩ := List.mem_map.mp hx
      rcases mem_renderPair p c hcx with rfl | h | rfl | rfl | h | rfl
      · decide
      · exact (hts p hp c h).2.2.2.2.2.2
      · decide
      · decide
      · exact (hvs p hp c h).2.2.2.2
      · decide
  have hextract : extract_html_tags_forecast (renderForecastBlock ps)
      = some (joinSep '\n' (ps.map renderPair)) :=
    extract_rendered (joinSep '\n' (ps.map renderPair)) hbody
  unfold parseForecast
  rw [hextract]
  have hred : (match some (joinSep '\n' (ps.map renderPair)) with
      | none => none
      | some block =>
        match optMapM parseLine (splitOnChar '\n' (stripParens block)) with
        | none => none
        | some pairs => optMapM (fun t => lookupLast t pairs) targets)
      = (match optMapM parseLine
            (splitOnChar '\n' (stripParens (joinSep '\n' (ps.map renderPair)))) with
        | none => none
        | some pairs => optMapM (fun t => lookupLast t pairs) targets) := rfl
  rw [hred]
  have hsp : stripParens (joinSep '\n' (ps.map renderPair))
      = joinSep '\n' (ps.map (fun p => p.1 ++ ',' :: ' ' :: p.2)) := by
    show ((joinSep '\n' (ps.map renderPair)).filter (fun c => c ≠ '(')).filter
        (fun c => c ≠ ')') = _
    rw [filter_joinSep '\n' (fun c => c ≠ '(') (by decide)]
    rw [filter_joinSep '\n' (fun c => c ≠ ')') (by decide)]
    rw [List.map_map, List.map_map]
    apply congrArg
    apply List.map_congr_left
    intro p hp
    show stripParens (renderPair p) = p.1 ++ ',' :: ' ' :: p.2
    exact stripParens_renderPair p
      (fun c hc => ⟨(hts p hp c hc).1, (hts p hp c hc).2.1⟩)
      (fun c hc => ⟨(hvs p hp c hc).1, (hvs p hp c hc).2.1⟩)
  rw [hsp]
  have hlines : splitOnChar '\n'
      (joinSep '\n' (ps.map (fun p => p.1 ++ ',' :: ' ' :: p.2)))
      = ps.map (fun p => p.1 ++ ',' :: ' ' :: p.2) := by
    apply splitOnChar_joinSep
    · intro hmap
      exact hne (List.map_eq_nil_iff.mp hmap)
    · intro x hx c hc
      obtain ⟨p, hp, rfl⟩ := List.mem_map.mp hx
      rcases List.mem_append.mp hc with hc1 | hc2
      · exact (hts p hp c hc1).2.2.2.1
      · rcases List.mem_cons.mp hc2 with rfl | hc3
        · decide
        · rcases List.mem_cons.mp hc3 with rfl | hc4
          · decide
          · exact (hvs p hp c hc4).2.2.2.1
  rw [hlines]
  have hparse : optMapM parseLine (ps.map (fun p => p.1 ++ ',' :: ' ' :: p.2))
      = some (ps.map (fun p => (p.1, qmap p.1))) := by
    apply optMapM_comp
    intro p hp
    exact parseLine_rendered p (qmap p.1)
      (fun c hc => ⟨(hts p hp c hc).2.2.1, (hts p hp c hc).2.2.2.2.1,
        (hts p hp c hc).2.2.2.2.2.1⟩)
      (fun c hc => (hvs p hp c hc).2.2.1)
      (hq p hp)
  rw [hparse]
  have hred2 : (match some (ps.map fun p => (p.1, qmap p.1)) with
      | none => none
      | some pairs => optMapM (fun t => lookupLast t pairs) targets)
      = optMapM (fun t => lookupLast t (ps.map fun p => (p.1, qmap p.1))) targets := rfl
  rw [hred2]
  apply optMapM_all_some
  intro t ht
  have hkeys2 : ((ps.map fun p => (p.1, qmap p.1)).map Prod.fst) = ps.map Prod.fst := by
    rw [List.map_map]
    rfl
  have hnodup : ((ps.map fun p => (p.1, qmap p.1)).map Prod.fst).Nodup := by
    rw [hkeys2]
    exact hkeys.nodup_iff.mpr hnd
  have hmem : t ∈ ps.map Prod.fst := hkeys.mem_iff.mpr ht
  obtain ⟨p, hp, hpt⟩ := List.mem_map.mp hmem
  have hin : (t, qmap t) ∈ ps.map fun p => (p.1, qmap p.1) := by
    refine List.mem_map.mpr ⟨p, hp, ?_⟩
    rw [show p.1 = t from hpt]
  exact lookupLast_nodup _ t (qmap t) hnodup hin

/-- C4: a model output whose delimited forecast block covers exactly the
requested target timestamps parses to the length-`H` sequence of values
aligned to the targets in target order, and the result is invariant under
any permutation of the pairs in the block. -/
theorem c4_order_independent_parsing (targets : List (List Char))
    (ps : List (List Char × List Char)) (qmap : List Char → ℚ)
    (hnd : targets.Nodup)
    (hne : ps ≠ [])
    (hkeys : (ps.map Prod.fst).Perm targets)
    (hts : ∀ p ∈ ps, ∀ c ∈ p.1, c ≠ '(' ∧ c ≠ ')' ∧ c ≠ ',' ∧ c ≠ '\n'
        ∧ c ≠ '\x27' ∧ c ≠ '\x22' ∧ c ≠ '<')
    (hvs : ∀ p ∈ ps, ∀ c ∈ p.2, c ≠ '(' ∧ c ≠ ')' ∧ c ≠ ',' ∧ c ≠ '\n' ∧ c ≠ '<')
    (hq : ∀ p ∈ ps, pyFloat p.2 = some (qmap p.1)) :
    (∀ ps2, ps.Perm ps2 →
      parseForecast targets (renderForecastBlock ps2) = some (targets.map qmap))
    ∧ (targets.map qmap).length = targets.length := by
  constructor
  · intro ps2 hperm
    apply parseForecast_rendered targets ps2 qmap hnd
    · intro hnil
      rw [hnil] at hperm
      exact hne (List.Perm.eq_nil hperm)
    · exact ((hperm.map Prod.fst).symm.trans hkeys)
    · exact fun p hp => hts p (hperm.mem_iff.mpr hp)
    · exact fun p hp => hvs p (hperm.mem_iff.mpr hp)
    · exact fun p hp => hq p (hperm.mem_iff.mpr hp)
  · simp

/-- The value map of the C4 witness: `t1 ↦ 1`, every other key `↦ 2`. -/
def qmapC4 : List Char → ℚ := fun t => if t = "t1".data then 1 else 2

/-- Witness for C4: the two-pair block emitted in reverse target order parses
to the values in target order. -/
theorem c4_order_independent_parsing_witness :
    parseForecast ["t1".data, "t2".data]
      (renderForecastBlock [("t2".data, "2.0".data), ("t1".data, "1.0".data)])
      = some (["t1".data, "t2".data].map qmapC4) :=
  (c4_order_independent_parsing ["t1".data, "t2".data]
      [("t1".data, "1.0".data), ("t2".data, "2.0".data)] qmapC4
      (by decide) (by decide) (by decide) (by decide) (by decide)
      (by with_unfolding_all decide)).1
    [("t2".data, "2.0".data), ("t1".data, "1.0".data)] (by decide)

/-! ### C9: cache-key determinism and sensitivity -/

/-- The accumulator of `natReprAux` is a suffix of its result. -/
theorem natReprAux_append :
    ∀ (fuel n : ℕ) (acc : List Char),
    natReprAux fuel n acc = natReprAux fuel n [] ++ acc := by
  intro fuel
  induction fuel with
  | zero => intro n acc; rfl
  | succ f ih =>
    intro n acc
    by_cases hn : n < 10
    · show (if n < 10 then digitChar10 n :: acc
          else natReprAux f (n / 10) (digitChar10 (n % 10) :: acc))
        = (if n < 10 then digitChar10 n :: []
          else natReprAux f (n / 10) (digitChar10 (n % 10) :: [])) ++ acc
      rw [if_pos hn, if_pos hn]
      rfl
    · show (if n < 10 then digitChar10 n :: acc
          else natReprAux f (n / 10) (digitChar10 (n % 10) :: acc))
        = (if n < 10 then digitChar10 n :: []
          else natReprAux f (n / 10) (digitChar10 (n % 10) :: [])) ++ acc
      rw [if_neg hn, if_neg hn]
      rw [ih (n / 10) (digitChar10 (n % 10) :: acc),
        ih (n / 10) (digitChar10 (n % 10) :: [])]
      simp

/-- `digitsVal` of a snoc. -/
theorem digitsVal_append_singleton (xs : List Char) (c : Char) :
    digitsVal (xs ++ [c]) = 10 * digitsVal xs + (c.toNat - 48) := by
  unfold digitsVal
  rw [List.foldl_append]
  rfl

/-- `natReprAux` round-trips through `digitsVal` when the fuel dominates the
value. -/
theorem digitsVal_natReprAux :
    ∀ (fuel n : ℕ), n < fuel → digitsVal (natReprAux fuel n []) = n := by
  intro fuel
  induction fuel with
  | zero => intro n h; omega
  | succ f ih =>
    intro n h
    by_cases hn : n < 10
    · show digitsVal (if n < 10 then digitChar10 n :: []
          else natReprAux f (n / 10) (digitChar10 (n % 10) :: [])) = n
      rw [if_pos hn]
      have hval : ∀ m, m < 10 → digitsVal [digitChar10 m] = m := by decide
      exact hval n hn
    · show digitsVal (if n < 10 then digitChar10 n :: []
          else natReprAux f (n / 10) (digitChar10 (n % 10) :: [])) = n
      rw [if_neg hn]
      rw [natReprAux_append f (n / 10) [digitChar10 (n % 10)]]
      rw [digitsVal_append_singleton]
      have hdiv : n / 10 < f := by
        have h1 : n / 10 < n := Nat.div_lt_self (by omega) (by omega)
        omega
      rw [ih (n / 10) hdiv]
      have hdig : ∀ m, m < 10 → (digitChar10 m).toNat - 48 = m := by decide
      rw [hdig (n % 10) (Nat.mod_lt n (by omega))]
      omega

/-- `natRepr` round-trips through `digitsVal`. -/
theorem digitsVal_natRepr (n : ℕ) : digitsVal (natRepr n) = n :=
  digitsVal_natReprAux (n + 1) n (Nat.lt_succ_self n)

/-- `natRepr` is injective: distinct nonnegative integers render differently. -/
theorem natRepr_injective (a b : ℕ) (h : natRepr a = natRepr b) : a = b := by
  have := congrArg digitsVal h
  rwa [digitsVal_natRepr, digitsVal_natRepr] at this

/-- `natReprAux` with positive fuel never returns the empty list. -/
theorem natReprAux_ne_nil :
    ∀ (fuel n : ℕ) (acc : List Char), natReprAux (fuel + 1) n acc ≠ [] := by
  intro fuel
  induction fuel with
  | zero =>
    intro n acc
    show (if n < 10 then digitChar10 n :: acc
        else natReprAux 0 (n / 10) (digitChar10 (n % 10) :: acc)) ≠ []
    by_cases hn : n < 10
    · rw [if_pos hn]; simp
    · rw [if_neg hn]; show digitChar10 (n % 10) :: acc ≠ []; simp
  | succ f ih =>
    intro n acc
    show (if n < 10 then digitChar10 n :: acc
        else natReprAux (f + 1) (n / 10) (digitChar10 (n % 10) :: acc)) ≠ []
    by_cases hn : n < 10
    · rw [if_pos hn]; simp
    · rw [if_neg hn]; exact ih (n / 10) (digitChar10 (n % 10) :: acc)

/-- `natRepr` is never empty. -/
theorem natRepr_ne_nil (n : ℕ) : natRepr n ≠ [] := natReprAux_ne_nil n n []

/-- A decimal digit character is none of the separator characters used by
the cache key and float rendering. -/
theorem digit_char_ne (c : Char) (h : c.isDigit = true) :
    c ≠ 'x' ∧ c ≠ '_' ∧ c ≠ '.' ∧ c ≠ '-' := by
  refine ⟨?_, ?_, ?_, ?_⟩ <;> intro heq <;> subst heq <;> exact absurd h (by decide)

/-- `intRepr` is injective. -/
theorem intRepr_injective (a b : ℤ) (h : intRepr a = intRepr b) : a = b := by
  unfold intRepr at h
  by_cases ha : a < 0 <;> by_cases hb : b < 0
  · rw [if_pos ha, if_pos hb] at h
    injection h with hh ht
    have := natRepr_injective a.natAbs b.natAbs ht
    omega
  · rw [if_pos ha, if_neg hb] at h
    exfalso
    have hmem : '-' ∈ natRepr b.natAbs := by
      rw [← h]
      exact List.mem_cons_self '-' _
    exact (digit_char_ne '-' (natRepr_digits _ '-' hmem)).2.2.2 rfl
  · rw [if_neg ha, if_pos hb] at h
    exfalso
    have hmem : '-' ∈ natRepr a.natAbs := by
      rw [h]
      exact List.mem_cons_self '-' _
    exact (digit_char_ne '-' (natRepr_digits _ '-' hmem)).2.2.2 rfl
  · rw [if_neg ha, if_neg hb] at h
    have := natRepr_injective a.natAbs b.natAbs h
    omega

/-- Every character of `intRepr` is a digit or the minus sign. -/
theorem intRepr_chars (z : ℤ) :
    ∀ c ∈ intRepr z, c.isDigit = true ∨ c = '-' := by
  intro c hc
  unfold intRepr at hc
  by_cases hz : z < 0
  · rw [if_pos hz] at hc
    rcases List.mem_cons.mp hc with rfl | hc
    · exact Or.inr rfl
    · exact Or.inl (natRepr_digits _ c hc)
  · rw [if_neg hz] at hc
    exact Or.inl (natRepr_digits _ c hc)

/-- Splitting at a separator character is unambiguous when the prefixes are
separator-free. -/
theorem append_sep_inj (sep : Char) :
    ∀ (a1 a2 b1 b2 : List Char), (∀ c ∈ a1, c ≠ sep) → (∀ c ∈ a2, c ≠ sep) →
    a1 ++ sep :: b1 = a2 ++ sep :: b2 → a1 = a2 ∧ b1 = b2 := by
  intro a1
  induction a1 with
  | nil =>
    intro a2 b1 b2 _ h2 heq
    cases a2 with
    | nil =>
      injection heq with _ h3
      exact ⟨rfl, h3⟩
    | cons d a2t =>
      injection heq with h3 _
      exact absurd h3.symm (h2 d (List.mem_cons_self d a2t))
  | cons c a1t ih =>
    intro a2 b1 b2 h1 h2 heq
    cases a2 with
    | nil =>
      injection heq with h3 _
      exact absurd h3 (h1 c (List.mem_cons_self c a1t))
    | cons d a2t =>
      injection heq with h3 h4
      obtain ⟨h5, h6⟩ := ih a2t b1 b2
        (fun e he => h1 e (List.mem_cons_of_mem c he))
        (fun e he => h2 e (List.mem_cons_of_mem d he)) h4
      rw [h3, h5]
      exact ⟨rfl, h6⟩

/-- `qRepr` is injective (distinct rationals render differently). -/
theorem qRepr_injective (a b : ℚ) (h : qRepr a = qRepr b) : a = b := by
  unfold qRepr at h
  obtain ⟨h1, h2⟩ := append_sep_inj '.' (intRepr a.num) (intRepr b.num)
    (natRepr a.den) (natRepr b.den)
    (fun c hc => by
      rcases intRepr_chars a.num c hc with hd | rfl
      · exact (digit_char_ne c hd).2.2.1
      · decide)
    (fun c hc => by
      rcases intRepr_chars b.num c hc with hd | rfl
      · exact (digit_char_ne c hd).2.2.1
      · decide)
    h
  have hnum := intRepr_injective a.num b.num h1
  have hden := natRepr_injective a.den b.den h2
  exact Rat.ext hnum hden

/-- A boolean rendering determines the boolean and the remainder. -/
theorem boolRepr_append_inj (b1 b2 : Bool) (x y : List Char)
    (h : boolRepr b1 ++ x = boolRepr b2 ++ y) : b1 = b2 ∧ x = y := by
  cases b1 <;> cases b2
  · exact ⟨rfl, List.append_cancel_left h⟩
  · exfalso
    have e1 : boolRepr false = 'F' :: "alse".data := rfl
    have e2 : boolRepr true = 'T' :: "rue".data := rfl
    rw [e1, e2, List.cons_append, List.cons_append] at h
    injection h with hh _
    exact absurd hh (by decide)
  · exfalso
    have e1 : boolRepr false = 'F' :: "alse".data := rfl
    have e2 : boolRepr true = 'T' :: "rue".data := rfl
    rw [e1, e2, List.cons_append, List.cons_append] at h
    injection h with hh _
    exact absurd hh (by decide)
  · exact ⟨rfl, List.append_cancel_left h⟩

/-- The part of the cache key after the `_use_context=` marker. -/
def cacheTail (cfg : CrazyCast) : List Char :=
  boolRepr cfg.use_context ++ "_fail_on_invalid=".data ++ boolRepr cfg.fail_on_invalid
    ++ "_n_retries=".data ++ natRepr cfg.n_retries
    ++ (if modelIsGpt cfg then [] else "_temperature=".data ++ qRepr cfg.temperature)

/-- Right-associated decomposition of the cache key. -/
theorem cache_name_eq (cfg : CrazyCast) :
    cache_name cfg
      = "CrazyCast_model=".data
        ++ (cfg.model ++ ("_use_context=".data ++ cacheTail cfg)) := by
  unfold cache_name cacheTail
  simp [List.append_assoc]

/-- No character after the `_use_context=` marker is an `x`: the booleans,
markers, digits and the temperature rendering all avoid it. -/
theorem cacheTail_noX (cfg : CrazyCast) : ∀ c ∈ cacheTail cfg, c ≠ 'x' := by
  intro c hc
  unfold cacheTail at hc
  simp only [List.append_assoc, List.mem_append] at hc
  rcases hc with hc | hc | hc | hc | hc | hc
  · cases hb : cfg.use_context <;> rw [hb] at hc
    · exact (by decide : ∀ c ∈ "False".data, c ≠ 'x') c hc
    · exact (by decide : ∀ c ∈ "True".data, c ≠ 'x') c hc
  · exact (by decide : ∀ c ∈ "_fail_on_invalid=".data, c ≠ 'x') c hc
  · cases hb : cfg.fail_on_invalid <;> rw [hb] at hc
    · exact (by decide : ∀ c ∈ "False".data, c ≠ 'x') c hc
    · exact (by decide : ∀ c ∈ "True".data, c ≠ 'x') c hc
  · exact (by decide : ∀ c ∈ "_n_retries=".data, c ≠ 'x') c hc
  · exact (digit_char_ne c (natRepr_digits _ c hc)).1
  · cases hg : modelIsGpt cfg <;> rw [hg] at hc
    · rcases List.mem_append.mp hc with hc | hc
      · exact (by decide : ∀ c ∈ "_temperature=".data, c ≠ 'x') c hc
      · unfold qRepr at hc
        rcases List.mem_append.mp hc with hc | hc
        · rcases intRepr_chars _ c hc with hd | rfl
          · exact (digit_char_ne c hd).1
          · decide
        · rcases List.mem_cons.mp hc with rfl | hc
          · decide
          · exact (digit_char_ne c (natRepr_digits _ c hc)).1
    · cases hc

/-- Cancellation of the model-name segment: since everything after the
`_use_context=` marker is `x`-free, the single `x` of the marker pins down
where the model name ends. -/
theorem model_cancel (m1 m2 t1 t2 : List Char)
    (hx1 : ∀ c ∈ t1, c ≠ 'x') (hx2 : ∀ c ∈ t2, c ≠ 'x')
    (h : m1 ++ ("_use_context=".data ++ t1) = m2 ++ ("_use_context=".data ++ t2)) :
    m1 = m2 ∧ t1 = t2 := by
  have hrev := congrArg List.reverse h
  rw [List.reverse_append, List.reverse_append, List.reverse_append,
    List.reverse_append] at hrev
  have hu : "_use_context=".data.reverse
      = ['=', 't'] ++ 'x' :: "etnoc_esu_".data := by decide
  rw [hu] at hrev
  have hrev2 : (t1.reverse ++ ['=', 't']) ++ 'x' :: ("etnoc_esu_".data ++ m1.reverse)
      = (t2.reverse ++ ['=', 't']) ++ 'x' :: ("etnoc_esu_".data ++ m2.reverse) := by
    simpa [List.append_assoc] using hrev
  obtain ⟨ha, hb⟩ := append_sep_inj 'x' _ _ _ _
    (fun c hc => by
      rcases List.mem_append.mp hc with hc | hc
      · exact hx1 c (List.mem_reverse.mp hc)
      · rcases List.mem_cons.mp hc with rfl | hc
        · decide
        · rcases List.mem_cons.mp hc with rfl | hc
          · decide
          · cases hc)
    (fun c hc => by
      rcases List.mem_append.mp hc with hc | hc
      · exact hx2 c (List.mem_reverse.mp hc)
      · rcases List.mem_cons.mp hc with rfl | hc
        · decide
        · rcases List.mem_cons.mp hc with rfl | hc
          · decide
          · cases hc)
    hrev2
  have ht : t1 = t2 := by
    have := List.append_cancel_right ha
    exact List.reverse_injective this
  have hm : m1 = m2 := by
    have := List.append_cancel_left hb
    exact List.reverse_injective this
  exact ⟨hm, ht⟩

/-- The cache-key tail determines the included configuration fields. -/
theorem cacheTail_inj (c1 c2 : CrazyCast) (hgpt : modelIsGpt c1 = modelIsGpt c2)
    (h : cacheTail c1 = cacheTail c2) :
    c1.use_context = c2.use_context ∧ c1.fail_on_invalid = c2.fail_on_invalid
    ∧ c1.n_retries = c2.n_retries
    ∧ (modelIsGpt c1 = false → c1.temperature = c2.temperature) := by
  unfold cacheTail at h
  simp only [List.append_assoc] at h
  obtain ⟨hu, h⟩ := boolRepr_append_inj _ _ _ _ h
  have h := List.append_cancel_left h
  obtain ⟨hf, h⟩ := boolRepr_append_inj _ _ _ _ h
  have h := List.append_cancel_left h
  rcases Bool.eq_false_or_eq_true (modelIsGpt c1) with hg | hg
  · have hg2 : modelIsGpt c2 = true := hgpt.symm.trans hg
    rw [hg, hg2] at h
    rw [if_pos (rfl : (true = true)), if_pos (rfl : (true = true))] at h
    rw [List.append_nil, List.append_nil] at h
    refine ⟨hu, hf, natRepr_injective _ _ h, ?_⟩
    intro hfalse
    rw [hg] at hfalse
    cases hfalse
  · have hg2 : modelIsGpt c2 = false := hgpt.symm.trans hg
    rw [hg, hg2] at h
    rw [if_neg (by decide : ¬ (false = true)), if_neg (by decide : ¬ (false = true))] at h
    have he : (['_', 't', 'e', 'm', 'p', 'e', 'r', 'a', 't', 'u', 'r', 'e', '='] : List Char)
        = '_' :: "temperature=".data := by decide
    rw [he, List.cons_append, List.cons_append] at h
    obtain ⟨hn1, hrest⟩ := append_sep_inj '_' _ _ _ _
      (fun c hc => (digit_char_ne c (natRepr_digits _ c hc)).2.1)
      (fun c hc => (digit_char_ne c (natRepr_digits _ c hc)).2.1)
      h
    have hq := qRepr_injective _ _ (by simpa using hrest)
    exact ⟨hu, hf, natRepr_injective _ _ hn1, fun _ => hq⟩

/-- C9: the cache key is a deterministic function of model name,
context-usage flag, invalid-handling policy and retry count, with
temperature included only for non-`gpt` models.  Two configurations agreeing
on these fields (temperature only needed for non-`gpt` models) share the
key — in particular configurations differing only in `batch_size_on_retry`,
`batch_size` or `token_cost` do; and two configurations with the same key
agree on every included field. -/
theorem c9_cache_key (c1 c2 : CrazyCast) :
    ((c1.model = c2.model ∧ c1.use_context = c2.use_context
      ∧ c1.fail_on_invalid = c2.fail_on_invalid ∧ c1.n_retries = c2.n_retries
      ∧ (modelIsGpt c1 = true ∨ c1.temperature = c2.temperature)) →
      cache_name c1 = cache_name c2)
    ∧ (cache_name c1 = cache_name c2 →
      c1.model = c2.model ∧ c1.use_context = c2.use_context
      ∧ c1.fail_on_invalid = c2.fail_on_invalid ∧ c1.n_retries = c2.n_retries
      ∧ (modelIsGpt c1 = false → c1.temperature = c2.temperature)) := by
  constructor
  · rintro ⟨hm, hu, hf, hn, ht⟩
    have hg : modelIsGpt c1 = modelIsGpt c2 := by
      unfold modelIsGpt
      rw [hm]
    unfold cache_name
    rw [hm, hu, hf, hn, hg]
    rcases Bool.eq_false_or_eq_true (modelIsGpt c2) with hgc | hgc
    · rw [hgc]
      simp
    · have hteq : c1.temperature = c2.temperature := by
        rcases ht with hgt | hteq
        · exfalso
          rw [hg, hgc] at hgt
          cases hgt
        · exact hteq
      rw [hteq]
  · intro h
    rw [cache_name_eq, cache_name_eq] at h
    have h2 := List.append_cancel_left h
    obtain ⟨hm, htail⟩ := model_cancel _ _ _ _ (cacheTail_noX c1) (cacheTail_noX c2) h2
    have hg : modelIsGpt c1 = modelIsGpt c2 := by
      unfold modelIsGpt
      rw [hm]
    obtain ⟨hu, hf, hn, ht⟩ := cacheTail_inj c1 c2 hg htail
    exact ⟨hm, hu, hf, hn, ht⟩

/-- Witness for C9: two engines differing only in `batch_size_on_retry`
produce the same cache key. -/
theorem c9_cache_key_witness :
    cache_name cfgW = cache_name { cfgW with batch_size_on_retry := 99 } :=
  (c9_cache_key cfgW { cfgW with batch_size_on_retry := 99 }).1
    ⟨rfl, rfl, rfl, rfl, Or.inl (by decide)⟩
